import Mathlib

/-!
Shallow embedding of the crucible LSM key-value store core.

Keys and values are byte strings, modelled as `List Nat` (each element a
byte value).  Pure data manipulations of the Rust source are translated to
Lean functions; file I/O is modelled by explicit byte lists / record lists;
`panic!`/`expect`/`unreachable!` outcomes are explicit constructors of the
result types.
-/

namespace Crucible

/-- Byte strings (keys, values, file contents). -/
abbrev Bytes := List Nat

/-- Lexicographic comparison of byte strings, mirroring the `Ord`
implementation for Rust slices that `key.cmp(...)` uses. -/
def cmpBytes : Bytes → Bytes → Ordering
  | [], [] => .eq
  | [], _ :: _ => .lt
  | _ :: _, [] => .gt
  | a :: as, b :: bs =>
    match compare a b with
    | .eq => cmpBytes as bs
    | o => o

theorem cmpBytes_eq_iff : ∀ {a b : Bytes}, cmpBytes a b = .eq ↔ a = b := by
  intro a
  induction a with
  | nil => intro b; cases b <;> simp [cmpBytes]
  | cons x xs ih =>
    intro b
    cases b with
    | nil => simp [cmpBytes]
    | cons y ys =>
      rcases h : compare x y with h' | h' | h'
      · have hxy : x ≠ y := Nat.ne_of_lt (Nat.compare_eq_lt.mp h)
        simp [cmpBytes, h, hxy]
      · have hxy : x = y := Nat.compare_eq_eq.mp h
        subst hxy
        simp [cmpBytes, h, ih]
      · have hxy : x ≠ y := Nat.ne_of_gt (Nat.compare_eq_gt.mp h)
        simp [cmpBytes, h, hxy]

theorem cmpBytes_refl (a : Bytes) : cmpBytes a a = .eq :=
  cmpBytes_eq_iff.mpr rfl

/-- Swapping the arguments swaps the ordering. -/
theorem cmpBytes_swap : ∀ (a b : Bytes), cmpBytes b a = (cmpBytes a b).swap := by
  intro a
  induction a with
  | nil => intro b; cases b <;> simp [cmpBytes, Ordering.swap]
  | cons x xs ih =>
    intro b
    cases b with
    | nil => simp [cmpBytes, Ordering.swap]
    | cons y ys =>
      rcases h : compare x y with h' | h' | h'
      · have hyx : compare y x = .gt := by
          rw [Nat.compare_eq_gt]; exact Nat.compare_eq_lt.mp h
        simp [cmpBytes, h, hyx, Ordering.swap]
      · have hxy : x = y := Nat.compare_eq_eq.mp h
        subst hxy
        simp [cmpBytes, h, ih]
      · have hyx : compare y x = .lt := by
          rw [Nat.compare_eq_lt]; exact Nat.compare_eq_gt.mp h
        simp [cmpBytes, h, hyx, Ordering.swap]

theorem cmpBytes_lt_trans :
    ∀ {a b c : Bytes}, cmpBytes a b = .lt → cmpBytes b c = .lt → cmpBytes a c = .lt := by
  intro a
  induction a with
  | nil =>
    intro b c hab hbc
    cases b with
    | nil => simpa [cmpBytes] using hbc
    | cons y ys =>
      cases c with
      | nil => simp [cmpBytes] at hbc
      | cons z zs => simp [cmpBytes]
  | cons x xs ih =>
    intro b c hab hbc
    cases b with
    | nil => simp [cmpBytes] at hab
    | cons y ys =>
      cases c with
      | nil => simp [cmpBytes] at hbc
      | cons z zs =>
        rcases hxy : compare x y with h1 | h1 | h1 <;>
          simp [cmpBytes, hxy] at hab <;>
          rcases hyz : compare y z with h2 | h2 | h2 <;>
            simp [cmpBytes, hyz] at hbc
        · have : compare x z = .lt := by
            rw [Nat.compare_eq_lt]
            exact lt_trans (Nat.compare_eq_lt.mp hxy) (Nat.compare_eq_lt.mp hyz)
          simp [cmpBytes, this]
        · have hyzeq : y = z := Nat.compare_eq_eq.mp hyz
          subst hyzeq
          simp [cmpBytes, hxy]
        · have hxyeq : x = y := Nat.compare_eq_eq.mp hxy
          subst hxyeq
          simp [cmpBytes, hyz]
        · have hxyeq : x = y := Nat.compare_eq_eq.mp hxy
          subst hxyeq
          simp [cmpBytes, hyz]
          exact ih hab hbc

/-- Record type from `protocol.rs` (`ReadRecord`; `WriteRecord` is the same
data borrowed, with the identical wire encoding). `exist` = `Exists{key,val}`
(op byte `'0'` = 48), `deleted` = `Deleted{key}` (op byte `'1'` = 49). -/
inductive ReadRecord : Type
  | exist (key val : Bytes)
  | deleted (key : Bytes)
deriving DecidableEq, Repr

/-- Key accessor, `ReadRecord::key`. -/
def ReadRecord.key : ReadRecord → Bytes
  | .exist k _ => k
  | .deleted k => k

/-- Little-endian `u32` encoding of `n` (`to_le_bytes` of `n as u32`). -/
def u32le (n : Nat) : Bytes :=
  [n % 256, n / 256 % 256, n / 256 ^ 2 % 256, n / 256 ^ 3 % 256]

/-- Little-endian `u32` decoding of four bytes (`u32::from_le_bytes`). -/
def leU32 (b0 b1 b2 b3 : Nat) : Nat :=
  b0 % 256 + 256 * (b1 % 256) + 256 ^ 2 * (b2 % 256) + 256 ^ 3 * (b3 % 256)

theorem leU32_u32le (n : Nat) (h : n < 2 ^ 32) :
    leU32 (n % 256) (n / 256 % 256) (n / 256 ^ 2 % 256) (n / 256 ^ 3 % 256) = n := by
  simp only [leU32, Nat.mod_mod]
  omega

/-- Wire encoding of a record, `ReadRecord::write_to` (also
`WriteRecord::write_to`): op byte, `key_len` as `u32le`, `val_len` as
`u32le` (zero for `Deleted`), key bytes, value bytes. -/
def ReadRecord.writeTo : ReadRecord → Bytes
  | .exist k v => 48 :: (u32le k.length ++ u32le v.length ++ k ++ v)
  | .deleted k => 49 :: (u32le k.length ++ u32le 0 ++ k)

/-- Outcome of `ReadRecord::read_from` on a byte stream: `ok rec rest`
models `Ok(rec)` with `rest` the unconsumed bytes (`rec = none` is clean
EOF), `ioError` an `Err(..)` (`UnexpectedEof` from `fill_buf` or
`read_exact`), and `panicked` the `panic!("invalid op byte ..")`. -/
inductive ReadResult : Type
  | ok (rec : Option ReadRecord) (rest : Bytes)
  | ioError
  | panicked
deriving DecidableEq, Repr

/-- Decoder `ReadRecord::read_from`, reading from the front of `input`.
Faithful to the source order of operations: the 9-byte header is filled
first (`fill_buf` returns clean EOF only when zero bytes are available,
`UnexpectedEof` on 1–8), then `key_length` bytes of key are read with
`read_exact`, and only then the op byte is inspected; an op byte other
than `b'0'`/`b'1'` is a `panic!`, not an error return. -/
def ReadRecord.readFrom : Bytes → ReadResult
  | [] => .ok none []
  | op :: b1 :: b2 :: b3 :: b4 :: b5 :: b6 :: b7 :: b8 :: rest =>
    let keyLen := leU32 b1 b2 b3 b4
    if rest.length < keyLen then .ioError
    else
      let key := rest.take keyLen
      let rest2 := rest.drop keyLen
      if op = 48 then
        let valLen := leU32 b5 b6 b7 b8
        if rest2.length < valLen then .ioError
        else .ok (some (.exist key (rest2.take valLen))) (rest2.drop valLen)
      else if op = 49 then .ok (some (.deleted key)) rest2
      else .panicked
  | _ => .ioError

theorem readFrom_writeTo_exist (k v : Bytes)
    (hkl : k.length < 2 ^ 32) (hvl : v.length < 2 ^ 32) :
    ReadRecord.readFrom (ReadRecord.writeTo (.exist k v)) = .ok (some (.exist k v)) [] := by
  have hkl' := leU32_u32le k.length hkl
  have hvl' := leU32_u32le v.length hvl
  simp only [ReadRecord.writeTo, u32le, List.cons_append, List.nil_append, List.append_assoc,
    ReadRecord.readFrom, hkl', hvl']
  have h1 : ¬((k ++ v).length < k.length) := by simp [List.length_append]
  rw [if_neg h1]
  simp only [if_pos rfl, List.drop_left, List.take_left]
  have h2 : ¬(v.length < v.length) := lt_irrefl _
  rw [if_neg h2]
  simp

theorem readFrom_writeTo_deleted (k : Bytes) (hkl : k.length < 2 ^ 32) :
    ReadRecord.readFrom (ReadRecord.writeTo (.deleted k)) = .ok (some (.deleted k)) [] := by
  have hkl' := leU32_u32le k.length hkl
  simp only [ReadRecord.writeTo, u32le, List.cons_append, List.nil_append, List.append_assoc,
    ReadRecord.readFrom, hkl']
  have h1 : ¬(k.length < k.length) := lt_irrefl _
  rw [if_neg h1]
  simp

/-- C9: Record round-trip and framing.  For every record with a non-empty
key (an `Exists` with any value, including the empty one, or a `Deleted`),
`write_to` emits exactly `9 + key_len + val_len` bytes (`val_len = 0` and
no value bytes for `Deleted`), and `read_from` applied to exactly those
bytes returns `Some` of the same record, consuming the whole input.
(The `u32le` length fields require `key_len, val_len < 2^32`.) -/
theorem c9_record_roundtrip (k v : Bytes) (_hk : k ≠ [])
    (hkl : k.length < 2 ^ 32) (hvl : v.length < 2 ^ 32) :
    (ReadRecord.writeTo (.exist k v)).length = 9 + k.length + v.length ∧
    ReadRecord.readFrom (ReadRecord.writeTo (.exist k v)) = .ok (some (.exist k v)) [] ∧
    (ReadRecord.writeTo (.deleted k)).length = 9 + k.length ∧
    ReadRecord.readFrom (ReadRecord.writeTo (.deleted k)) = .ok (some (.deleted k)) [] := by
  refine ⟨?_, readFrom_writeTo_exist k v hkl hvl, ?_, readFrom_writeTo_deleted k hkl⟩
  · simp [ReadRecord.writeTo, u32le]
    omega
  · simp [ReadRecord.writeTo, u32le]
    omega

/-- Witness for C9 at a concrete record. -/
theorem c9_record_roundtrip_witness :
    (ReadRecord.writeTo (.exist [107] [118])).length = 9 + 1 + 1 ∧
    ReadRecord.readFrom (ReadRecord.writeTo (.exist [107] [118]))
      = .ok (some (.exist [107] [118])) [] ∧
    (ReadRecord.writeTo (.deleted [107])).length = 9 + 1 ∧
    ReadRecord.readFrom (ReadRecord.writeTo (.deleted [107])) = .ok (some (.deleted [107])) [] :=
  c9_record_roundtrip [107] [118] (by decide) (by decide) (by decide)

/-- C8 counterexample: on the nine-byte input whose op byte is `b'2'` (50)
with zero-length key and value fields, `read_from` panics
(`panic!("invalid op byte ..")`) instead of returning an error result, so
the claim that it returns a `Corruption`-class error and never panics is
false on this input. -/
theorem c8_bad_op_counterexample :
    ReadRecord.readFrom [50, 0, 0, 0, 0, 0, 0, 0, 0] = .panicked := by decide

/-- C8 amended: for every non-empty input whose first byte is neither
`b'0'` (48) nor `b'1'` (49), `read_from` never returns a record: it
either surfaces an I/O error (when the header or the declared key bytes
are incomplete) or panics on the invalid op byte. -/
theorem c8_bad_op_amended (input : Bytes) (h0 : input ≠ [])
    (h48 : input.headD 0 ≠ 48) (h49 : input.headD 0 ≠ 49) :
    ReadRecord.readFrom input = .ioError ∨ ReadRecord.readFrom input = .panicked := by
  rcases input with _ | ⟨op, _ | ⟨b1, _ | ⟨b2, _ | ⟨b3, _ | ⟨b4, _ | ⟨b5, _ | ⟨b6, _ |
    ⟨b7, _ | ⟨b8, rest⟩⟩⟩⟩⟩⟩⟩⟩⟩
  · exact absurd rfl h0
  all_goals simp_all [ReadRecord.readFrom]
  omega

/-- Witness for the amended C8 at the concrete bad input. -/
theorem c8_bad_op_amended_witness :
    ([50, 0, 0, 0, 0, 0, 0, 0, 0] : Bytes) ≠ [] ∧
    (ReadRecord.readFrom [50, 0, 0, 0, 0, 0, 0, 0, 0] = .ioError ∨
      ReadRecord.readFrom [50, 0, 0, 0, 0, 0, 0, 0, 0] = .panicked) :=
  ⟨by decide, c8_bad_op_amended [50, 0, 0, 0, 0, 0, 0, 0, 0] (by decide) (by decide) (by decide)⟩

/-- An item of a fallible record iterator (`io::Result<ReadRecord>`);
errors carry an opaque tag. -/
abbrev RItem := Except Nat ReadRecord

instance : DecidableEq RItem := fun a b =>
  match a, b with
  | .error x, .error y =>
    if h : x = y then .isTrue (by rw [h]) else .isFalse (fun hc => by cases hc; exact h rfl)
  | .ok x, .ok y =>
    if h : x = y then .isTrue (by rw [h]) else .isFalse (fun hc => by cases hc; exact h rfl)
  | .error _, .ok _ => .isFalse (fun hc => by cases hc)
  | .ok _, .error _ => .isFalse (fun hc => by cases hc)

/-- Buffered input iterator of the merge, `IterBuf` from `combiner.rs`:
the not-yet-consumed tail of the underlying iterator, the one buffered
record (`None` once the underlying iterator was empty at push time), and
the `(level, sequence)` priority tag. -/
structure MIter : Type where
  iter : List RItem
  buf : Option ReadRecord
  level : Nat
  sequence : Option Nat
deriving DecidableEq, Repr

/-- Priority tag of an input. -/
def MIter.tag (e : MIter) : Nat × Option Nat := (e.level, e.sequence)

/-- Comparison `IterBuf::cmp` (the `Ord` impl used by the `BinaryHeap`):
keys ascending as primary criterion (so the heap maximum is the smallest
key), then lower level first, then higher sequence first.  `none` models
the `unreachable!("cannot have equal keys within the same level and
sequence")` panic when two buffered records have equal keys and levels but
the sequences are not both present. -/
def cmpMI (s o : MIter) : Option Ordering :=
  match s.buf, o.buf with
  | some sb, some ob =>
    if cmpBytes ob.key sb.key ≠ .eq then some (cmpBytes ob.key sb.key)
    else if s.level ≠ o.level then some (compare o.level s.level)
    else
      match s.sequence, o.sequence with
      | some ss, some os => some (compare ss os)
      | _, _ => none
  | some _, none => some .gt
  | none, some _ => some .lt
  | none, none => some .eq

/-- Result of removing a maximum element from the heap. -/
inductive PopRes : Type
  | empty
  | cmpPanic
  | popped (top : MIter) (rest : List MIter)
deriving Repr

/-- Model of `BinaryHeap::pop` (and `peek`): remove a maximal element
w.r.t. `cmpMI`.  The heap is modelled as the list of its elements; among
`cmpMI`-equal elements the choice Rust makes is unspecified, and every use
below either has no such ties or ties only between entries the merge
treats identically. -/
def popMax : List MIter → PopRes
  | [] => .empty
  | x :: xs =>
    match popMax xs with
    | .empty => .popped x []
    | .cmpPanic => .cmpPanic
    | .popped t rest =>
      match cmpMI x t with
      | none => .cmpPanic
      | some .lt => .popped t (x :: rest)
      | some _ => .popped x (t :: rest)

/-- Termination measure: each entry counts one for its buffered record
plus the length of its pending iterator. -/
def heapWeight (h : List MIter) : Nat :=
  (h.map fun e => 1 + e.iter.length).sum

theorem popMax_eq_empty_iff : ∀ {h : List MIter}, popMax h = .empty ↔ h = [] := by
  intro h
  cases h with
  | nil => simp [popMax]
  | cons x xs =>
    simp only [popMax]
    constructor
    · intro hp
      split at hp
      · exact absurd hp (by simp)
      · exact absurd hp (by simp)
      · split at hp <;> simp_all
    · intro hc
      exact absurd hc (by simp)

theorem popMax_perm {h : List MIter} {t : MIter} {rest : List MIter}
    (hp : popMax h = .popped t rest) : h.Perm (t :: rest) := by
  induction h generalizing t rest with
  | nil => simp [popMax] at hp
  | cons x xs ih =>
    rw [popMax] at hp
    split at hp
    · rename_i hx
      cases hp
      have hxs : xs = [] := popMax_eq_empty_iff.mp hx
      subst hxs
      exact List.Perm.refl _
    · exact absurd hp (by simp)
    · rename_i t' rest' hx
      split at hp
      · exact absurd hp (by simp)
      · cases hp
        exact ((ih hx).cons x).trans (List.Perm.swap t x rest')
      · cases hp
        exact (ih hx).cons x

theorem heapWeight_perm {h h' : List MIter} (hp : h.Perm h') : heapWeight h = heapWeight h' :=
  List.Perm.sum_eq (hp.map _)

theorem popMax_weight {h : List MIter} {t : MIter} {rest : List MIter}
    (hp : popMax h = .popped t rest) :
    heapWeight h = 1 + t.iter.length + heapWeight rest := by
  have := heapWeight_perm (popMax_perm hp)
  simpa [heapWeight] using this

/-- Result of the duplicate-discarding loop inside `MergeIter::next`:
`ok` with the heap after the loop, `err` when refilling a popped
same-key iterator yielded `Err(e)` (the merge returns `Some(Err(e))` with
that heap, the popped entry dropped), `panic` for the `expect` on a
missing buffer or the `unreachable!` inside `IterBuf::cmp`. -/
inductive DedupRes : Type
  | ok (heap : List MIter)
  | err (e : Nat) (heap : List MIter)
  | panic
deriving Repr

/-- The `while let Some(nn) = self.iters.peek()` loop of
`MergeIter::next`: while the top of the heap buffers a record with the
same key as the record being emitted, pop it, advance its underlying
iterator by one and re-insert it if non-empty (discarding its same-key
record); an `Err` from the advance is returned as the next merge item. -/
def dedup (rkey : Bytes) (heap : List MIter) : DedupRes :=
  match hp : popMax heap with
  | .empty => .ok heap
  | .cmpPanic => .panic
  | .popped t rest =>
    match t.buf with
    | none => .panic
    | some b =>
      if b.key = rkey then
        match hi : t.iter with
        | [] => dedup rkey rest
        | .error e :: _ => .err e rest
        | .ok b' :: xs => dedup rkey (⟨xs, some b', t.level, t.sequence⟩ :: rest)
      else .ok heap
termination_by heapWeight heap
decreasing_by
  · have := popMax_weight hp
    omega
  · have := popMax_weight hp
    rw [hi] at this
    simp only [heapWeight, List.map_cons, List.sum_cons, List.length_cons] at *
    omega

theorem dedup_eq_empty (rkey : Bytes) {heap : List MIter}
    (hp : popMax heap = .empty) : dedup rkey heap = .ok heap := by
  rw [dedup]
  split
  · rfl
  · rename_i heq; simp [hp] at heq
  · rename_i heq; simp [hp] at heq

theorem dedup_eq_cmpPanic (rkey : Bytes) {heap : List MIter}
    (hp : popMax heap = .cmpPanic) : dedup rkey heap = .panic := by
  rw [dedup]
  split
  · rename_i heq; simp [hp] at heq
  · rfl
  · rename_i heq; simp [hp] at heq

theorem dedup_eq_bufNone (rkey : Bytes) {heap : List MIter} {t : MIter} {rest : List MIter}
    (hp : popMax heap = .popped t rest) (hb : t.buf = none) : dedup rkey heap = .panic := by
  rw [dedup]
  split
  · rename_i heq; simp [hp] at heq
  · rename_i heq; simp [hp] at heq
  · rename_i t' rest' heq
    rw [hp] at heq
    cases heq
    simp only [hb]

theorem dedup_eq_keyEq_nil {rkey : Bytes} {heap : List MIter} {t : MIter} {rest : List MIter}
    {b : ReadRecord} (hp : popMax heap = .popped t rest) (hb : t.buf = some b)
    (hk : b.key = rkey) (hi : t.iter = []) : dedup rkey heap = dedup rkey rest := by
  rw [dedup]
  split
  · rename_i heq; simp [hp] at heq
  · rename_i heq; simp [hp] at heq
  · rename_i t' rest' heq
    rw [hp] at heq
    cases heq
    simp only [hb, if_pos hk]
    split
    · rfl
    · rename_i e tl heq2; simp [hi] at heq2
    · rename_i b' xs heq2; simp [hi] at heq2

theorem dedup_eq_keyEq_err {rkey : Bytes} {heap : List MIter} {t : MIter} {rest : List MIter}
    {b : ReadRecord} {e : Nat} {tl : List RItem}
    (hp : popMax heap = .popped t rest) (hb : t.buf = some b)
    (hk : b.key = rkey) (hi : t.iter = .error e :: tl) : dedup rkey heap = .err e rest := by
  rw [dedup]
  split
  · rename_i heq; simp [hp] at heq
  · rename_i heq; simp [hp] at heq
  · rename_i t' rest' heq
    rw [hp] at heq
    cases heq
    simp only [hb, if_pos hk]
    split
    · rename_i heq2; simp [hi] at heq2
    · rename_i e' tl' heq2
      rw [hi] at heq2
      cases heq2
      rfl
    · rename_i b' xs heq2; simp [hi] at heq2

theorem dedup_eq_keyEq_ok {rkey : Bytes} {heap : List MIter} {t : MIter} {rest : List MIter}
    {b b' : ReadRecord} {xs : List RItem}
    (hp : popMax heap = .popped t rest) (hb : t.buf = some b)
    (hk : b.key = rkey) (hi : t.iter = .ok b' :: xs) :
    dedup rkey heap = dedup rkey (⟨xs, some b', t.level, t.sequence⟩ :: rest) := by
  rw [dedup]
  split
  · rename_i heq; simp [hp] at heq
  · rename_i heq; simp [hp] at heq
  · rename_i t' rest' heq
    rw [hp] at heq
    cases heq
    simp only [hb, if_pos hk]
    split
    · rename_i heq2; simp [hi] at heq2
    · rename_i e' tl' heq2; simp [hi] at heq2
    · rename_i b'' xs' heq2
      rw [hi] at heq2
      cases heq2
      rfl

theorem dedup_eq_keyNe {rkey : Bytes} {heap : List MIter} {t : MIter} {rest : List MIter}
    {b : ReadRecord} (hp : popMax heap = .popped t rest) (hb : t.buf = some b)
    (hk : b.key ≠ rkey) : dedup rkey heap = .ok heap := by
  rw [dedup]
  split
  · rename_i heq; simp [hp] at heq
  · rename_i heq; simp [hp] at heq
  · rename_i t' rest' heq
    rw [hp] at heq
    cases heq
    simp only [hb, if_neg hk]

/-- One step of the merge iterator (`MergeIter::next`): `done` models
`None` (heap empty), `item x heap` models `Some(x)` leaving `heap`, and
`panic` models the `expect("Buffer must not be None")` firing (an entry
buffering no record was popped or peeked) or the `unreachable!` inside
`IterBuf::cmp`. -/
inductive MergeStep : Type
  | done
  | item (x : RItem) (heap : List MIter)
  | panic
deriving Repr

/-- `MergeIter::next`: pop the top iterator, emit its buffered record
after discarding all same-key records from other iterators, then advance
the top iterator and re-insert it if non-empty.  An `Err` met while
advancing any iterator is emitted instead (losing the winning record),
without re-inserting the iterators in hand. -/
def mergeNext (heap : List MIter) : MergeStep :=
  match popMax heap with
  | .empty => .done
  | .cmpPanic => .panic
  | .popped n rest =>
    match n.buf with
    | none => .panic
    | some record =>
      match dedup record.key rest with
      | .panic => .panic
      | .err e rest2 => .item (.error e) rest2
      | .ok rest2 =>
        match n.iter with
        | [] => .item (.ok record) rest2
        | .error e :: _ => .item (.error e) rest2
        | .ok b :: xs => .item (.ok record) (⟨xs, some b, n.level, n.sequence⟩ :: rest2)

/-- How a full merge run ends: clean exhaustion (`next` returned `None`)
or a panic. -/
inductive MergeTerm : Type
  | finished
  | panicked
deriving DecidableEq, Repr

/-- A full run of the merge iterator: the emitted items in order plus how
the iteration ended. -/
structure MergeOut : Type where
  items : List RItem
  term : MergeTerm
deriving DecidableEq, Repr

theorem dedup_weight {rkey : Bytes} {heap : List MIter} :
    ∀ {h2 : List MIter}, (dedup rkey heap = .ok h2 → heapWeight h2 ≤ heapWeight heap) ∧
      (∀ e, dedup rkey heap = .err e h2 → heapWeight h2 ≤ heapWeight heap) := by
  induction heap using dedup.induct rkey with
  | case1 heap hp =>
    intro h2
    rw [dedup_eq_empty rkey hp]
    refine ⟨fun h => ?_, fun e h => ?_⟩
    · cases h; exact le_refl _
    · cases h
  | case2 heap hp =>
    intro h2
    rw [dedup_eq_cmpPanic rkey hp]
    exact ⟨(fun h => by cases h), (fun e h => by cases h)⟩
  | case3 heap t rest hp hb =>
    intro h2
    rw [dedup_eq_bufNone rkey hp hb]
    exact ⟨(fun h => by cases h), (fun e h => by cases h)⟩
  | case4 heap t rest hp b hb hkey hi ih =>
    intro h2
    rw [dedup_eq_keyEq_nil hp hb hkey hi]
    have hw := popMax_weight hp
    refine ⟨fun h => ?_, fun e h => ?_⟩
    · exact le_trans (ih.1 h) (by omega)
    · exact le_trans (ih.2 e h) (by omega)
  | case5 heap t rest hp b hb hkey e tl hi =>
    intro h2
    rw [dedup_eq_keyEq_err hp hb hkey hi]
    have hw := popMax_weight hp
    refine ⟨(fun h => by cases h), fun e2 h => ?_⟩
    cases h
    omega
  | case6 heap t rest hp b hb hkey b2 xs hi ih =>
    intro h2
    rw [dedup_eq_keyEq_ok hp hb hkey hi]
    have hw := popMax_weight hp
    rw [hi] at hw
    have hw2 : heapWeight (⟨xs, some b2, t.level, t.sequence⟩ :: rest)
        = 1 + xs.length + heapWeight rest := by
      simp [heapWeight]
    refine ⟨fun h => ?_, fun e h => ?_⟩
    · refine le_trans (ih.1 h) ?_
      rw [hw2]
      simp only [List.length_cons] at hw
      omega
    · refine le_trans (ih.2 e h) ?_
      rw [hw2]
      simp only [List.length_cons] at hw
      omega
  | case7 heap t rest hp b hb hkey =>
    intro h2
    rw [dedup_eq_keyNe hp hb hkey]
    refine ⟨fun h => ?_, fun e h => ?_⟩
    · cases h; exact le_refl _
    · cases h

theorem mergeNext_item_weight {heap : List MIter} {x : RItem} {h2 : List MIter}
    (h : mergeNext heap = .item x h2) : heapWeight h2 < heapWeight heap := by
  rw [mergeNext] at h
  split at h
  · exact absurd h (by simp)
  · exact absurd h (by simp)
  · rename_i n rest hp
    have hw := popMax_weight hp
    split at h
    · exact absurd h (by simp)
    · rename_i record hb
      split at h
      · exact absurd h (by simp)
      · rename_i e rest2 hd
        cases h
        have := (@dedup_weight record.key rest _).2 e hd
        omega
      · rename_i rest2 hd
        have hr := (@dedup_weight record.key rest _).1 hd
        split at h
        · cases h; omega
        · cases h; omega
        · rename_i b xs hi
          cases h
          rw [hi] at hw
          simp only [heapWeight, List.map_cons, List.sum_cons, List.length_cons] at *
          omega

/-- A full run of `MergeIter` as an iterator: repeatedly call `next`
until it returns `None` or panics, collecting the emitted items. -/
def mergeRun (heap : List MIter) : MergeOut :=
  match hm : mergeNext heap with
  | .done => ⟨[], .finished⟩
  | .panic => ⟨[], .panicked⟩
  | .item x h2 =>
    let rest := mergeRun h2
    ⟨x :: rest.items, rest.term⟩
termination_by heapWeight heap
decreasing_by
  exact mergeNext_item_weight hm

theorem mergeRun_eq_done {heap : List MIter} (hm : mergeNext heap = .done) :
    mergeRun heap = ⟨[], .finished⟩ := by
  rw [mergeRun]
  split
  · rfl
  · rename_i heq; simp [hm] at heq
  · rename_i heq; simp [hm] at heq

theorem mergeRun_eq_panic {heap : List MIter} (hm : mergeNext heap = .panic) :
    mergeRun heap = ⟨[], .panicked⟩ := by
  rw [mergeRun]
  split
  · rename_i heq; simp [hm] at heq
  · rfl
  · rename_i heq; simp [hm] at heq

theorem mergeRun_eq_item {heap : List MIter} {x : RItem} {h2 : List MIter}
    (hm : mergeNext heap = .item x h2) :
    mergeRun heap = ⟨x :: (mergeRun h2).items, (mergeRun h2).term⟩ := by
  rw [mergeRun]
  split
  · rename_i heq; simp [hm] at heq
  · rename_i heq; simp [hm] at heq
  · rename_i x' h2' heq
    rw [hm] at heq
    cases heq
    rfl

/-- `MergeIter::push_iter`: buffer the first item of the pushed iterator
(an `Err` first item is propagated by the `?` and the entry is not
pushed) and insert the entry into the heap. -/
def pushIter (heap : List MIter) (iter : List RItem) (level : Nat) (sequence : Option Nat) :
    Except Nat (List MIter) :=
  match iter with
  | [] => .ok (⟨[], none, level, sequence⟩ :: heap)
  | .ok b :: rest => .ok (⟨rest, some b, level, sequence⟩ :: heap)
  | .error e :: _ => .error e

/-- C7 counterexample: two level-0 inputs, sequence 0 yielding the record
with key `[1]` and then an error, sequence 1 yielding the record with key
`[2]`.  The merge surfaces the error as its first item (discarding the
key-`[1]` record), but the next call still yields the key-`[2]` record:
the merge iterator is not exhausted after the first error, refuting the
claim that after an error it yields nothing further. -/
theorem c7_error_latch_counterexample :
    mergeRun [⟨[.error 7], some (.exist [1] [10]), 0, some 0⟩,
              ⟨[], some (.exist [2] [20]), 0, some 1⟩]
      = ⟨[.error 7, .ok (.exist [2] [20])], .finished⟩ := by
  have hA : popMax [(⟨[.error 7], some (.exist [1] [10]), 0, some 0⟩ : MIter),
      ⟨[], some (.exist [2] [20]), 0, some 1⟩]
      = .popped ⟨[.error 7], some (.exist [1] [10]), 0, some 0⟩
          [⟨[], some (.exist [2] [20]), 0, some 1⟩] := rfl
  have hd : dedup [1] [(⟨[], some (.exist [2] [20]), 0, some 1⟩ : MIter)]
      = .ok [⟨[], some (.exist [2] [20]), 0, some 1⟩] :=
    dedup_eq_keyNe rfl rfl (by decide)
  have h1 : mergeNext [(⟨[.error 7], some (.exist [1] [10]), 0, some 0⟩ : MIter),
      ⟨[], some (.exist [2] [20]), 0, some 1⟩]
      = .item (.error 7) [⟨[], some (.exist [2] [20]), 0, some 1⟩] := by
    rw [mergeNext, hA]
    simp only [ReadRecord.key, hd]
  have hd2 : dedup [2] ([] : List MIter) = .ok [] := dedup_eq_empty _ rfl
  have h2 : mergeNext [(⟨[], some (.exist [2] [20]), 0, some 1⟩ : MIter)]
      = .item (.ok (.exist [2] [20])) [] := by
    rw [mergeNext]
    simp only [popMax, ReadRecord.key, hd2]
  have h3 : mergeNext ([] : List MIter) = .done := by rw [mergeNext]; rfl
  rw [mergeRun_eq_item h1, mergeRun_eq_item h2, mergeRun_eq_done h3]

/-- C7 amended: the first error observed is surfaced as the next item of
the merge (in place of the record that won), but the merge is not
exhausted afterwards: the erroring input and the popped top entry are
dropped and the remaining inputs continue to be drained.  Shown for every
pair of level-0 inputs where sequence 0 yields a record with the smaller
key and then an error, and sequence 1 yields one record: the output is
the error followed by the other input's record, ending cleanly. -/
theorem c7_error_no_latch_amended (k1 v1 k2 v2 : Bytes) (e : Nat)
    (hlt : cmpBytes k1 k2 = .lt) :
    (pushIter [] [.ok (.exist k1 v1), .error e] 0 (some 0)).bind
        (fun h => pushIter h [.ok (.exist k2 v2)] 0 (some 1))
      = .ok [⟨[], some (.exist k2 v2), 0, some 1⟩,
             ⟨[.error e], some (.exist k1 v1), 0, some 0⟩] ∧
    mergeRun [⟨[], some (.exist k2 v2), 0, some 1⟩,
              ⟨[.error e], some (.exist k1 v1), 0, some 0⟩]
      = ⟨[.error e, .ok (.exist k2 v2)], .finished⟩ := by
  have hne : ¬((ReadRecord.exist k2 v2).key = k1) := by
    simp only [ReadRecord.key]
    intro hc
    subst hc
    rw [cmpBytes_refl] at hlt
    cases hlt
  have hA : popMax [(⟨[], some (.exist k2 v2), 0, some 1⟩ : MIter),
      ⟨[.error e], some (.exist k1 v1), 0, some 0⟩]
      = .popped ⟨[.error e], some (.exist k1 v1), 0, some 0⟩
          [⟨[], some (.exist k2 v2), 0, some 1⟩] := by
    simp [popMax, cmpMI, ReadRecord.key, hlt]
  have hd : dedup k1 [(⟨[], some (.exist k2 v2), 0, some 1⟩ : MIter)]
      = .ok [⟨[], some (.exist k2 v2), 0, some 1⟩] :=
    dedup_eq_keyNe rfl rfl hne
  have h1 : mergeNext [(⟨[], some (.exist k2 v2), 0, some 1⟩ : MIter),
      ⟨[.error e], some (.exist k1 v1), 0, some 0⟩]
      = .item (.error e) [⟨[], some (.exist k2 v2), 0, some 1⟩] := by
    rw [mergeNext, hA]
    simp only [ReadRecord.key, hd]
  have hd2 : dedup k2 ([] : List MIter) = .ok [] := dedup_eq_empty _ rfl
  have h2 : mergeNext [(⟨[], some (.exist k2 v2), 0, some 1⟩ : MIter)]
      = .item (.ok (.exist k2 v2)) [] := by
    rw [mergeNext]
    simp only [popMax, ReadRecord.key, hd2]
  have h3 : mergeNext ([] : List MIter) = .done := by rw [mergeNext]; rfl
  exact ⟨rfl, by rw [mergeRun_eq_item h1, mergeRun_eq_item h2, mergeRun_eq_done h3]⟩

/-- Witness for the amended C7 at concrete records. -/
theorem c7_error_no_latch_amended_witness :
    cmpBytes [3] [4] = .lt ∧
    mergeRun [⟨[], some (.exist [4] [40]), 0, some 1⟩,
              ⟨[.error 9], some (.exist [3] [30]), 0, some 0⟩]
      = ⟨[.error 9, .ok (.exist [4] [40])], .finished⟩ :=
  ⟨by decide, (c7_error_no_latch_amended [3] [30] [4] [40] 9 (by decide)).2⟩

/-- How `combine_tables` ends: `okDone` models `Ok(())`, `errored` an
early `Err` return, `panicked` a panic reached through the merge,
`diverged` the non-termination of the outer loop when `size_limit` is 0
and records remain (never reached at the positive limits used below). -/
inductive CombTerm : Type
  | okDone
  | errored (e : Nat)
  | panicked
  | diverged
deriving DecidableEq, Repr

/-- Result of `combine_tables`: the record contents of every `.sst` file
it created in the output directory (a file is created at the top of each
loop iteration, before any record is written, so aborted iterations still
leave a file), plus how the call ended. -/
structure CombOut : Type where
  files : List (List ReadRecord)
  term : CombTerm
deriving DecidableEq, Repr

/-- Result of the inner `while written < size_limit` loop of
`combine_tables`: the records written to the current file and either the
remaining merge items (`stopped`: limit reached or clean exhaustion), an
error item met while draining (`errored`, returned by the `record?`), or
a panic from the exhausted-but-panicking merge. -/
inductive FileLoopRes : Type
  | stopped (recs : List ReadRecord) (rest : List RItem)
  | errored (e : Nat) (recs : List ReadRecord)
  | panicked (recs : List ReadRecord)
deriving DecidableEq, Repr

/-- The inner drain loop of one output file, consuming the merge output
(`xs` still pending, `t` how the merge ends after `xs`), with `written`
bytes already written.  Each record contributes its encoded length. -/
def fileLoop (limit : Nat) (t : MergeTerm) : List RItem → Nat → FileLoopRes
  | xs, written =>
    if written ≥ limit then .stopped [] xs
    else
      match xs with
      | [] =>
        match t with
        | .finished => .stopped [] []
        | .panicked => .panicked []
      | .error e :: _ => .errored e []
      | .ok r :: xs2 =>
        match fileLoop limit t xs2 (written + r.writeTo.length) with
        | .stopped recs rest => .stopped (r :: recs) rest
        | .errored e recs => .errored e (r :: recs)
        | .panicked recs => .panicked (r :: recs)

/-- The outer per-file loop of `combine_tables`, on the merge output.
Each iteration creates a file, peeks for the start key (an `Err` there is
consumed and returned; a panicking peek panics), drains records up to the
size limit, writes index and footer, and returns `Ok` when the merge is
exhausted.  `fuel` bounds the number of files (`items.length + 1` always
suffices when `limit > 0`). -/
def combineFiles (limit : Nat) (t : MergeTerm) : Nat → List RItem → CombOut
  | 0, _ => ⟨[], .diverged⟩
  | fuel + 1, xs =>
    match xs with
    | [] =>
      match t with
      | .finished => ⟨[[]], .okDone⟩
      | .panicked => ⟨[[]], .panicked⟩
    | .error e :: _ => ⟨[[]], .errored e⟩
    | .ok _ :: _ =>
      match fileLoop limit t xs 0 with
      | .errored e recs => ⟨[recs], .errored e⟩
      | .panicked recs => ⟨[recs], .panicked⟩
      | .stopped recs rest =>
        match rest with
        | [] =>
          match t with
          | .finished => ⟨[recs], .okDone⟩
          | .panicked => ⟨[recs], .panicked⟩
        | _ :: _ =>
          let out := combineFiles limit t fuel rest
          ⟨recs :: out.files, out.term⟩

/-- One input to `combine_tables` (`CombineTable`): a record iterator
tagged with its level and optional sequence. -/
structure CombineTable : Type where
  table : List RItem
  level : Nat
  sequence : Option Nat

/-- `combine_tables`: push every input into a fresh `MergeIter` (a
first-item error aborts with `Err`), then drain the peekable merge into
size-capped output files. -/
def combineTables (tables : List CombineTable) (sizeLimit : Nat) : Except Nat CombOut :=
  match tables.foldlM (fun h tb => pushIter h tb.table tb.level tb.sequence) [] with
  | .error e => .error e
  | .ok heap =>
    let out := mergeRun heap
    .ok (combineFiles sizeLimit out.term (out.items.length + 1) out.items)

/-- C6: Degenerate compaction run, evaluated on the code.  With an empty
collection of inputs, `combine_tables` returns `Ok` but has created one
`.sst` file (holding zero records, only an empty index and a footer); with
one input whose iterator is empty, it creates the file and then panics on
`Buffer must not be None` when the peek pops the buffer-less entry.  The
claim that a run in which every input iterator is empty returns
successfully having created zero files is false on both counts. -/
theorem c6_degenerate_run_code_bug :
    combineTables [] 1024 = .ok ⟨[[]], .okDone⟩ ∧
    combineTables [⟨[], 0, some 0⟩] 1024 = .ok ⟨[[]], .panicked⟩ := by
  have hdone : mergeNext ([] : List MIter) = .done := by rw [mergeNext]; rfl
  have hrun : mergeRun ([] : List MIter) = ⟨[], .finished⟩ := mergeRun_eq_done hdone
  have hpanic : mergeNext [(⟨[], none, 0, some 0⟩ : MIter)] = .panic := by
    rw [mergeNext]; rfl
  have hrun2 : mergeRun [(⟨[], none, 0, some 0⟩ : MIter)] = ⟨[], .panicked⟩ :=
    mergeRun_eq_panic hpanic
  constructor
  · simp [combineTables, hrun, combineFiles, pure, Except.pure]
  · simp [combineTables, pushIter, hrun2, combineFiles, pure, Except.pure, bind, Except.bind]

/-- An on-disk table as the catalog holds it (`Table` in `sst/table.rs`):
its records in ascending key order.  `Table::new` streams the index
section into a key-to-offset map; `Table::get` looks the key up there and
decodes the record at the offset, which at the data level is association
by key.  A `Table` over an empty file cannot be constructed (the index
builder panics on `IndexReader must have a key`), so tables have at least
one record. -/
structure STable : Type where
  records : List ReadRecord
deriving DecidableEq, Repr

/-- `Table::get`: index lookup by key, decoding the record at the hit. -/
def STable.get (t : STable) (k : Bytes) : Option ReadRecord :=
  t.records.find? (fun r => r.key == k)

/-- `Table::key_start`: first index key = first record's key. -/
def STable.keyStart (t : STable) : Bytes :=
  match t.records with
  | [] => []
  | r :: _ => r.key

/-- `Table::key_end`: last index key = last record's key. -/
def STable.keyEnd (t : STable) : Bytes :=
  (t.records.getLast?.map ReadRecord.key).getD []

/-- The catalog's in-memory table registry (`Catalog.ssts`): index 0 is
level 0 (tables oldest-first), index 1 level 1, and so on. -/
structure SCatalog : Type where
  ssts : List (List STable)
deriving DecidableEq, Repr

/-- `Catalog::get`: iterate levels from 0 upward, tables within a level
newest-first (reverse of stored order), returning the first hit. -/
def SCatalog.get (c : SCatalog) (k : Bytes) : Option ReadRecord :=
  c.ssts.findSome? (fun level => level.reverse.findSome? (fun t => t.get k))

/-- The level-0 key-range union fold of `compact_level_0`: `key_start` is
updated when still empty or when a table starts lower. -/
def foldKeyStart (l0 : List STable) : Bytes :=
  l0.foldl (fun acc t => if acc.length = 0 ∨ cmpBytes t.keyStart acc = .lt then t.keyStart else acc) []

/-- Dual fold for `key_end`. -/
def foldKeyEnd (l0 : List STable) : Bytes :=
  l0.foldl (fun acc t => if acc.length = 0 ∨ cmpBytes t.keyEnd acc = .gt then t.keyEnd else acc) []

/-- The level-1 input selection of `compact_level_0`: a table is taken iff
its start key or its end key lies within `[keyStart, keyEnd]`. -/
def selectL1 (keyStart keyEnd : Bytes) (t : STable) : Bool :=
  (cmpBytes t.keyStart keyStart ≠ .lt ∧ cmpBytes t.keyStart keyEnd ≠ .gt) ∨
  (cmpBytes t.keyEnd keyStart ≠ .lt ∧ cmpBytes t.keyEnd keyEnd ≠ .gt)

/-- The `enumerate()`-tagged level-0 merge inputs of `compact_level_0`:
table `i` in stored (oldest-first) order is tagged `(level 0, seq i)`. -/
def l0CombineInputs (i : Nat) : List STable → List CombineTable
  | [] => []
  | t :: rest => CombineTable.mk (t.records.map Except.ok) 0 (some i) :: l0CombineInputs (i + 1) rest

/-- Outcome of `Compactor::compact_level_0`: on success, the record
contents of the new level-1 files written by `combine_tables` and the
level-1 tables that were not selected (and therefore not deleted);
level-0 files are all deleted.  `panicked` covers the `expect` on a
catalog with no levels and panics reached through the merge. -/
inductive CompactRes : Type
  | ok (newL1 : List (List ReadRecord)) (surviving : List STable)
  | errored (e : Nat)
  | panicked
deriving DecidableEq, Repr

/-- `Compactor::compact_level_0` on the catalog's table registry: union
the level-0 key ranges, select intersecting level-1 tables by the
endpoint test, merge all of them (level-0 tables tagged `(0, seq i)` in
stored order, selected level-1 tables `(1, none)`) through
`combine_tables` into new level-1 files, then delete the inputs. -/
def compactLevel0 (ssts : List (List STable)) (sizeLimit : Nat) : CompactRes :=
  match ssts with
  | [] => .panicked
  | level0 :: higher =>
    let keyStart := foldKeyStart level0
    let keyEnd := foldKeyEnd level0
    let l0Inputs := l0CombineInputs 0 level0
    let l1 := higher.headD []
    let selected := l1.filter (selectL1 keyStart keyEnd)
    let inputs := l0Inputs ++ selected.map (fun t => CombineTable.mk (t.records.map Except.ok) 1 none)
    match combineTables inputs sizeLimit with
    | .error e => .errored e
    | .ok out =>
      match out.term with
      | .okDone => .ok out.files (l1.filter (fun t => ¬ selectL1 keyStart keyEnd t))
      | .errored e => .errored e
      | .panicked => .panicked
      | .diverged => .panicked

theorem mergeRun_single (r : ReadRecord) (lv : Nat) (sq : Option Nat) :
    mergeRun [⟨[], some r, lv, sq⟩] = ⟨[.ok r], .finished⟩ := by
  have hd : dedup r.key ([] : List MIter) = .ok [] := dedup_eq_empty _ rfl
  have h1 : mergeNext [(⟨[], some r, lv, sq⟩ : MIter)] = .item (.ok r) [] := by
    rw [mergeNext]
    simp only [popMax, hd]
  have h3 : mergeNext ([] : List MIter) = .done := by rw [mergeNext]; rfl
  rw [mergeRun_eq_item h1, mergeRun_eq_done h3]

/-- C1, evaluated on the code at a failing catalog state.  Level 0 holds
one table with the record `[15] ↦ [1]`; level 1 holds one table spanning
`[10] .. [20]` with an older record `[15] ↦ [0]`.  Before compaction
`Catalog::get [15]` returns the level-0 record `[1]`.  The level-0 union
is `[[15],[15]]`, and the spanning level-1 table has neither endpoint in
it, so it is not selected; compaction writes a new level-1 file holding
only `[15] ↦ [1]` while the old table survives.  After the rebuild the
two level-1 tables overlap, and with the rebuilt directory order listing
the survivor after the new file (`read_dir` order of the uuid-named files
is arbitrary), `Catalog::get [15]` now returns the stale `[0]`. -/
theorem c1_compaction_visibility_code_bug :
    SCatalog.get ⟨[[⟨[.exist [15] [1]]⟩],
                   [⟨[.exist [10] [0], .exist [15] [0], .exist [20] [0]]⟩]]⟩ [15]
      = some (.exist [15] [1]) ∧
    compactLevel0 [[⟨[.exist [15] [1]]⟩],
                   [⟨[.exist [10] [0], .exist [15] [0], .exist [20] [0]]⟩]] 1024
      = .ok [[.exist [15] [1]]] [⟨[.exist [10] [0], .exist [15] [0], .exist [20] [0]]⟩] ∧
    SCatalog.get ⟨[[], [⟨[.exist [15] [1]]⟩,
                        ⟨[.exist [10] [0], .exist [15] [0], .exist [20] [0]]⟩]]⟩ [15]
      = some (.exist [15] [0]) := by
  refine ⟨by decide, ?_, by decide⟩
  simp +decide [compactLevel0, foldKeyStart, foldKeyEnd, selectL1, combineTables, pushIter,
    mergeRun_single, combineFiles, fileLoop, cmpBytes, pure, Except.pure, bind, Except.bind,
    ReadRecord.writeTo, u32le, ReadRecord.key, l0CombineInputs, STable.keyStart, STable.keyEnd]

/-- Overlap of the key ranges of two tables (negation of the disjointness
required by invariant C2 of the specification for levels ≥ 1). -/
def rangesOverlap (a b : STable) : Prop :=
  cmpBytes a.keyStart b.keyEnd ≠ .gt ∧ cmpBytes b.keyStart a.keyEnd ≠ .gt

/-- C4, evaluated on the code at a failing catalog state.  The level-1
table spanning `[25] .. [35]` strictly contains the level-0 union
`[[30],[30]]`, so the endpoint test selects it neither by its start nor
by its end; after compaction the new level-1 file (range `[30] .. [30]`)
overlaps the surviving table, violating the level-≥1 non-overlap
invariant the claim asserts is preserved. -/
theorem c4_level1_overlap_code_bug :
    selectL1 [30] [30] ⟨[.exist [25] [7], .exist [30] [8], .exist [35] [9]]⟩ = false ∧
    compactLevel0 [[⟨[.exist [30] [2]]⟩],
                   [⟨[.exist [25] [7], .exist [30] [8], .exist [35] [9]]⟩]] 1024
      = .ok [[.exist [30] [2]]] [⟨[.exist [25] [7], .exist [30] [8], .exist [35] [9]]⟩] ∧
    rangesOverlap ⟨[.exist [30] [2]]⟩ ⟨[.exist [25] [7], .exist [30] [8], .exist [35] [9]]⟩ := by
  refine ⟨by decide, ?_, ⟨by decide, by decide⟩⟩
  simp +decide [compactLevel0, foldKeyStart, foldKeyEnd, selectL1, combineTables, pushIter,
    mergeRun_single, combineFiles, fileLoop, cmpBytes, pure, Except.pure, bind, Except.bind,
    ReadRecord.writeTo, u32le, ReadRecord.key, l0CombineInputs, STable.keyStart, STable.keyEnd]

/-- The in-memory table (`MemTable` in `memtable.rs`): a
`HashMap<Vec<u8>, Vec<u8>>`, modelled as an association list with unique
keys.  Note there is no tombstone state: an entry is either present with
a value or absent. -/
abbrev MemTable := List (Bytes × Bytes)

/-- `MemTable::put`: `data.insert(key, val)` — replace or append. -/
def mtPut (m : MemTable) (k v : Bytes) : MemTable :=
  if m.any (fun p => p.1 == k) then m.map (fun p => if p.1 == k then (k, v) else p)
  else m ++ [(k, v)]

/-- `MemTable::get`. -/
def mtGet (m : MemTable) (k : Bytes) : Option Bytes :=
  (m.find? (fun p => p.1 == k)).map (fun p => p.2)

/-- `MemTable::del`: removes the occupied entry; a key with no entry is
left untouched.  No tombstone is recorded. -/
def mtDel (m : MemTable) (k : Bytes) : MemTable :=
  m.filter (fun p => !(p.1 == k))

/-- File contents after `Wal::new(path)` (`wal.rs`): the file is opened
with `append(true).create(true)` — created when missing, otherwise opened
for appending with its existing contents intact.  No truncation occurs. -/
def walNew (existing : Option Bytes) : Bytes :=
  existing.getD []

/-- Insertion into a key-ascending record list, for the
`sort_unstable_by_key(|v| v.key())` in `Catalog::write_records`. -/
def insertByKey (r : ReadRecord) : List ReadRecord → List ReadRecord
  | [] => [r]
  | x :: xs => if cmpBytes r.key x.key = .gt then x :: insertByKey r xs else r :: x :: xs

/-- Sort records ascending by key. -/
def sortByKey : List ReadRecord → List ReadRecord
  | [] => []
  | x :: xs => insertByKey x (sortByKey xs)

/-- Outcome of `Catalog::write_records`: the catalog with the new table
appended at the end of level 0, or the panic of
`.first().expect("records must not be empty")` when the record collection
is empty (records, index and file creation happen before the footer, so
an empty `.sst` file is left behind in that case). -/
inductive FlushRes : Type
  | ok (c : SCatalog)
  | panicked
deriving DecidableEq, Repr

/-- `Catalog::write_records`: sort the records by key, write them, the
index and the footer to a fresh level-0 file, and append the new table to
level 0 (creating the level list when absent). -/
def writeRecords (c : SCatalog) (recs : List ReadRecord) : FlushRes :=
  let sorted := sortByKey recs
  match sorted with
  | [] => .panicked
  | _ :: _ =>
    .ok ⟨match c.ssts with
         | [] => [[⟨sorted⟩]]
         | l0 :: higher => (l0 ++ [⟨sorted⟩]) :: higher⟩

/-- The store (`Store` in `store.rs`): memtable, WAL file contents and
the writer's running byte count, the catalog, and the configured
limits. -/
structure SStore : Type where
  memtable : MemTable
  walFile : Bytes
  walSize : Nat
  catalog : SCatalog
  walSizeLimit : Nat
  tableSizeLimit : Nat
  level0FileLimit : Nat
deriving Repr

/-- Outcome of a store operation: the new store state or a panic
propagated from `write_records` / compaction. -/
inductive StoreRes : Type
  | ok (s : SStore)
  | panicked
deriving Repr

/-- `Compactor::maybe_compact` followed by the catalog rebuild in
`flush_memtable`: compaction runs iff level 0 holds at least
`level_0_file_limit` tables; afterwards the catalog is re-read from
disk — level 0 is empty, level 1 holds the new files and the unselected
survivors (in an order `read_dir` does not specify; the new files are
listed here first), deeper levels are untouched. -/
def maybeCompact (s : SStore) : StoreRes :=
  match s.catalog.ssts with
  | [] => .panicked
  | l0 :: _ =>
    if l0.length ≥ s.level0FileLimit then
      match compactLevel0 s.catalog.ssts s.tableSizeLimit with
      | .ok newL1 surviving =>
        .ok { s with catalog := ⟨[] :: (newL1.map STable.mk ++ surviving) :: s.catalog.ssts.drop 2⟩ }
      | .errored _ => .panicked
      | .panicked => .panicked
    else .ok s

/-- `Store::flush_memtable`: flush the memtable's entries (all `Exists`
write-records — the memtable has no tombstones to drain) through
`Catalog::write_records`, re-open the WAL writer via `Wal::new` (which
does not truncate), reset the memtable, and maybe compact. -/
def flushMemtable (s : SStore) : StoreRes :=
  match writeRecords s.catalog (s.memtable.map (fun p => ReadRecord.exist p.1 p.2)) with
  | .panicked => .panicked
  | .ok c =>
    maybeCompact { s with memtable := [], walFile := walNew (some s.walFile), walSize := 0,
                          catalog := c }

/-- `Store::put`: append the `Exists` record to the WAL (fsynced), then
mutate the memtable, then flush if the WAL grew past the limit. -/
def storePut (s : SStore) (k v : Bytes) : StoreRes :=
  let enc := ReadRecord.writeTo (.exist k v)
  let s2 := { s with walFile := s.walFile ++ enc, walSize := s.walSize + enc.length,
                     memtable := mtPut s.memtable k v }
  if s2.walSize > s2.walSizeLimit then flushMemtable s2 else .ok s2

/-- `Store::del`: same protocol with a `Deleted` record and
`MemTable::del`. -/
def storeDel (s : SStore) (k : Bytes) : StoreRes :=
  let enc := ReadRecord.writeTo (.deleted k)
  let s2 := { s with walFile := s.walFile ++ enc, walSize := s.walSize + enc.length,
                     memtable := mtDel s.memtable k }
  if s2.walSize > s2.walSizeLimit then flushMemtable s2 else .ok s2

/-- `Store::get`: the memtable first (any hit is returned as-is — there
is no tombstone case), otherwise `Catalog::get`, mapping `Deleted` to
`None`. -/
def storeGet (s : SStore) (k : Bytes) : Option Bytes :=
  match mtGet s.memtable k with
  | some v => some v
  | none =>
    match s.catalog.get k with
    | some (.exist _ v) => some v
    | some (.deleted _) => none
    | none => none

/-- One caller-visible store operation. -/
inductive StoreOp : Type
  | put (k v : Bytes)
  | del (k : Bytes)
  | flushOp

/-- Run a sequence of store operations, stopping at a panic. -/
def runOps (s : SStore) : List StoreOp → StoreRes
  | [] => .ok s
  | op :: rest =>
    match (match op with
           | .put k v => storePut s k v
           | .del k => storeDel s k
           | .flushOp => flushMemtable s) with
    | .panicked => .panicked
    | .ok s2 => runOps s2 rest

/-- `Store::get` observed after running a sequence of operations (`none`
if the run panicked). -/
def getAfter (s : SStore) (ops : List StoreOp) (k : Bytes) : Option Bytes :=
  match runOps s ops with
  | .ok s2 => storeGet s2 k
  | .panicked => none

/-- A freshly opened store over an empty data directory, with the default
limits of `store.rs` (4 MiB WAL, 4 MiB tables, 5 level-0 files). -/
def freshStore : SStore :=
  ⟨[], [], 0, ⟨[]⟩, 4194304, 4194304, 5⟩

/-- C2, evaluated on the code at a failing operation sequence.  After
`put [1] [42]`, an explicit flush (the put is now only in the on-disk
level-0 table), and `del [1]`, the claim says `get [1]` returns `None`:
the delete was the last operation on the key.  But `MemTable::del`
merely removes an entry (the memtable has no tombstone state), so the
fresh memtable stays empty, `Store::get` falls through to the catalog,
and the flushed `put` resurfaces: the store returns `Some [42]`. -/
theorem c2_delete_after_flush_code_bug :
    getAfter freshStore [.put [1] [42], .flushOp, .del [1]] [1] = some [42] ∧
    mtDel (mtPut [] [1] [42]) [1] = [] := by
  constructor
  · rfl
  · rfl

/-- C5, evaluated on the code.  `Wal::new` opens with
`append(true).create(true)`: constructing the writer on a path whose file
already holds an encoded record leaves the file's contents (11 bytes)
intact — its length is not zero.  Consequently, after `flush_memtable`
re-opens the writer, the WAL still contains the record bytes appended
before the flush. -/
theorem c5_wal_not_truncated_code_bug :
    walNew (some (ReadRecord.writeTo (.exist [107] [118])))
      = ReadRecord.writeTo (.exist [107] [118]) ∧
    (walNew (some (ReadRecord.writeTo (.exist [107] [118])))).length = 11 ∧
    (match flushMemtable { freshStore with
        memtable := [([107], [118])],
        walFile := ReadRecord.writeTo (.exist [107] [118]),
        walSize := 11 } with
     | .ok s => s.walFile
     | .panicked => []) = ReadRecord.writeTo (.exist [107] [118]) := by
  refine ⟨rfl, rfl, rfl⟩

/-- C10: `Catalog::write_records` panics on an empty record collection
(the footer's `first().expect("records must not be empty")`), for every
catalog state; consequently `Store::flush_memtable` on a store whose
memtable is empty — e.g. an explicit flush on a fresh store — does not
return normally either. -/
theorem c10_empty_flush_panics (c : SCatalog) (wal : Bytes) (wsl tsl l0l : Nat) :
    writeRecords c [] = .panicked ∧
    flushMemtable ⟨[], wal, 0, c, wsl, tsl, l0l⟩ = .panicked := by
  exact ⟨rfl, rfl⟩

/-- The records an entry still holds: its buffered record followed by the
(ok) items of its pending iterator. -/
def entRecs (e : MIter) : List ReadRecord :=
  (match e.buf with
   | some b => [b]
   | none => []) ++ e.iter.filterMap (fun x => x.toOption)

/-- Key of the buffered record (`[]` when no record is buffered). -/
def bufKey (e : MIter) : Bytes :=
  (e.buf.map ReadRecord.key).getD []

/-- Every pending item is an `Ok` record. -/
def AllOk (l : List RItem) : Prop := ∀ x ∈ l, ∃ r, x = Except.ok r

/-- Strictly ascending keys. -/
def StrictAsc (l : List ReadRecord) : Prop :=
  l.Chain' (fun a b => cmpBytes a.key b.key = .lt)

/-- The tag condition of the claim between two distinct inputs: equal
levels force both sequences present and distinct (otherwise
`IterBuf::cmp` can hit its `unreachable!`). -/
def tagR (a b : MIter) : Prop :=
  a.level = b.level → ∃ sa sb, a.sequence = some sa ∧ b.sequence = some sb ∧ sa ≠ sb

theorem tagR_symm : ∀ {a b : MIter}, tagR a b → tagR b a := by
  intro a b h hl
  rcases h hl.symm with ⟨sa, sb, ha, hb, hne⟩
  exact ⟨sb, sa, hb, ha, fun hc => hne hc.symm⟩

/-- Newness priority of the merge (most recent wins): lower level, then
higher sequence. -/
def prioGE (a b : MIter) : Prop :=
  a.level < b.level ∨ (a.level = b.level ∧ b.sequence.getD 0 ≤ a.sequence.getD 0)

/-- `a` is emitted no later than `b`: smaller buffered key, or equal keys
and at least the priority. -/
def domGE (a b : MIter) : Prop :=
  cmpBytes (bufKey a) (bufKey b) = .lt ∨ (bufKey a = bufKey b ∧ prioGE a b)

theorem cmpBytes_gt_iff_lt {a b : Bytes} : cmpBytes a b = .gt ↔ cmpBytes b a = .lt := by
  rw [cmpBytes_swap b a]
  cases h : cmpBytes b a <;> simp [Ordering.swap]

theorem domGE_refl (a : MIter) : domGE a a :=
  Or.inr ⟨rfl, Or.inr ⟨rfl, le_refl _⟩⟩

theorem domGE_trans {a b c : MIter} (h1 : domGE a b) (h2 : domGE b c) : domGE a c := by
  rcases h1 with h1 | ⟨h1k, h1p⟩
  · rcases h2 with h2 | ⟨h2k, h2p⟩
    · exact Or.inl (cmpBytes_lt_trans h1 h2)
    · exact Or.inl (h2k ▸ h1)
  · rcases h2 with h2 | ⟨h2k, h2p⟩
    · exact Or.inl (h1k ▸ h2)
    · refine Or.inr ⟨h1k.trans h2k, ?_⟩
      rcases h1p with h1p | ⟨h1l, h1s⟩
      · rcases h2p with h2p | ⟨h2l, h2s⟩
        · exact Or.inl (h1p.trans h2p)
        · exact Or.inl (h2l ▸ h1p)
      · rcases h2p with h2p | ⟨h2l, h2s⟩
        · exact Or.inl (h1l ▸ h2p)
        · exact Or.inr ⟨h1l.trans h2l, h2s.trans h1s⟩

theorem domGE_total (a b : MIter) : domGE a b ∨ domGE b a := by
  rcases hk : cmpBytes (bufKey a) (bufKey b) with h | h | h
  · exact Or.inl (Or.inl hk)
  · have hkeq : bufKey a = bufKey b := cmpBytes_eq_iff.mp hk
    rcases Nat.lt_trichotomy a.level b.level with hl | hl | hl
    · exact Or.inl (Or.inr ⟨hkeq, Or.inl hl⟩)
    · rcases Nat.le_total (b.sequence.getD 0) (a.sequence.getD 0) with hs | hs
      · exact Or.inl (Or.inr ⟨hkeq, Or.inr ⟨hl, hs⟩⟩)
      · exact Or.inr (Or.inr ⟨hkeq.symm, Or.inr ⟨hl.symm, hs⟩⟩)
    · exact Or.inr (Or.inr ⟨hkeq.symm, Or.inl hl⟩)
  · exact Or.inr (Or.inl (cmpBytes_gt_iff_lt.mp hk))

theorem cmpMI_ne_none {e f : MIter} {be bf : ReadRecord}
    (he : e.buf = some be) (hf : f.buf = some bf) (ht : tagR e f) : cmpMI e f ≠ none := by
  rw [cmpMI, he, hf]
  by_cases hk : cmpBytes bf.key be.key = .eq
  · simp only [hk]
    by_cases hl : e.level = f.level
    · rcases ht hl with ⟨sa, sb, ha, hb, _⟩
      simp [hl, ha, hb]
    · simp [hl]
  · simp [hk]

theorem cmpMI_ge_iff {e f : MIter} {be bf : ReadRecord}
    (he : e.buf = some be) (hf : f.buf = some bf) (ht : tagR e f) :
    (cmpMI e f = some .gt ∨ cmpMI e f = some .eq) ↔ domGE e f := by
  have hbk : bufKey e = be.key := by simp [bufKey, he]
  have hbk2 : bufKey f = bf.key := by simp [bufKey, hf]
  rw [domGE, prioGE, hbk, hbk2]
  simp only [cmpMI, he, hf]
  by_cases hk : cmpBytes bf.key be.key = .eq
  · have hkeq : bf.key = be.key := cmpBytes_eq_iff.mp hk
    have hto : ¬(cmpBytes be.key bf.key = .lt) := by
      rw [hkeq, cmpBytes_refl]
      simp
    rw [if_neg (not_not_intro hk)]
    by_cases hl : e.level = f.level
    · rcases ht hl with ⟨sa, sb, ha, hb, _⟩
      rw [if_neg (not_not_intro hl), ha, hb]
      simp only [ha, hb, Option.getD_some]
      constructor
      · rintro (hc | hc)
        · injection hc with hc
          exact Or.inr ⟨hkeq.symm, Or.inr ⟨hl, le_of_lt (Nat.compare_eq_gt.mp hc)⟩⟩
        · injection hc with hc
          exact Or.inr ⟨hkeq.symm, Or.inr ⟨hl, le_of_eq (Nat.compare_eq_eq.mp hc).symm⟩⟩
      · rintro (hc | ⟨-, hc | ⟨-, hc⟩⟩)
        · exact absurd hc hto
        · exact absurd hc (hl ▸ lt_irrefl _)
        · rcases Nat.lt_or_ge sb sa with h | h
          · exact Or.inl (congrArg some (Nat.compare_eq_gt.mpr h))
          · have hsab : sa = sb := le_antisymm h hc
            exact Or.inr (by rw [hsab, Nat.compare_eq_eq.mpr rfl])
    · rw [if_pos hl]
      constructor
      · rintro (hc | hc)
        · injection hc with hc
          exact Or.inr ⟨hkeq.symm, Or.inl (Nat.compare_eq_gt.mp hc)⟩
        · injection hc with hc
          exact absurd (Nat.compare_eq_eq.mp hc).symm hl
      · rintro (hc | ⟨-, hc | ⟨hc, -⟩⟩)
        · exact absurd hc hto
        · exact Or.inl (congrArg some (Nat.compare_eq_gt.mpr hc))
        · exact absurd hc hl
  · rw [if_pos hk]
    have hne2 : ¬(be.key = bf.key) := fun hq => hk (by rw [hq, cmpBytes_refl])
    constructor
    · rintro (hc | hc)
      · injection hc with hc
        exact Or.inl (cmpBytes_gt_iff_lt.mp hc)
      · injection hc with hc
        exact absurd hc hk
    · rintro (hc | ⟨hq, -⟩)
      · exact Or.inl (congrArg some (cmpBytes_gt_iff_lt.mpr hc))
      · exact absurd hq hne2

theorem popMax_no_panic {H : List MIter}
    (hb : ∀ e ∈ H, ∃ b, e.buf = some b) (hpair : H.Pairwise tagR) :
    popMax H ≠ .cmpPanic := by
  induction H with
  | nil => simp [popMax]
  | cons x xs ih =>
    rw [List.pairwise_cons] at hpair
    rw [popMax]
    intro hc
    split at hc
    · cases hc
    · exact ih (fun e he => hb e (List.mem_cons_of_mem x he)) hpair.2 (by assumption)
    · rename_i t' rest' hx
      split at hc
      · rename_i hcmp
        have ht' : t' ∈ xs := (popMax_perm hx).mem_iff.mpr (List.mem_cons_self _ _)
        rcases hb x (List.mem_cons_self _ _) with ⟨bx, hbx⟩
        rcases hb t' (List.mem_cons_of_mem x ht') with ⟨bt, hbt⟩
        exact cmpMI_ne_none hbx hbt (hpair.1 t' ht') hcmp
      · cases hc
      · cases hc

theorem popMax_max {H : List MIter} {t : MIter} {rest : List MIter}
    (hb : ∀ e ∈ H, ∃ b, e.buf = some b) (hpair : H.Pairwise tagR)
    (hp : popMax H = .popped t rest) : ∀ e ∈ rest, domGE t e := by
  induction H generalizing t rest with
  | nil => simp [popMax] at hp
  | cons x xs ih =>
    rw [List.pairwise_cons] at hpair
    rw [popMax] at hp
    split at hp
    · cases hp
      simp
    · exact absurd hp (by simp)
    · rename_i t' rest' hx
      have hbxs : ∀ e ∈ xs, ∃ b, e.buf = some b :=
        fun e he => hb e (List.mem_cons_of_mem x he)
      have ihmax := ih hbxs hpair.2 hx
      have ht' : t' ∈ xs := (popMax_perm hx).mem_iff.mpr (List.mem_cons_self _ _)
      rcases hb x (List.mem_cons_self _ _) with ⟨bx, hbx⟩
      rcases hbxs t' ht' with ⟨bt, hbt⟩
      have htag : tagR x t' := hpair.1 t' ht'
      rcases hcmp : cmpMI x t' with _ | o
      · simp only [hcmp] at hp
        exact absurd hp (by simp)
      · rcases o with _ | _ | _
        · -- cmpMI x t' = some .lt : t' stays on top
          simp only [hcmp] at hp
          cases hp
          intro e he
          rcases List.mem_cons.mp he with he2 | he'
          · rw [he2]
            rcases domGE_total x t with h | h
            · exfalso
              rcases (cmpMI_ge_iff hbx hbt htag).mpr h with hc | hc <;>
                rw [hcmp] at hc <;> cases hc
            · exact h
          · exact ihmax e he'
        · -- cmpMI x t' = some .eq : x wins
          have hxt : domGE x t' := (cmpMI_ge_iff hbx hbt htag).mp (Or.inr hcmp)
          simp only [hcmp] at hp
          cases hp
          intro e he
          rcases List.mem_cons.mp he with he2 | he'
          · rw [he2]
            exact hxt
          · exact domGE_trans hxt (ihmax e he')
        · -- cmpMI x t' = some .gt : x wins
          have hxt : domGE x t' := (cmpMI_ge_iff hbx hbt htag).mp (Or.inl hcmp)
          simp only [hcmp] at hp
          cases hp
          intro e he
          rcases List.mem_cons.mp he with he2 | he'
          · rw [he2]
            exact hxt
          · exact domGE_trans hxt (ihmax e he')

theorem entRecs_eq_cons {e : MIter} {b : ReadRecord} (hb : e.buf = some b) :
    entRecs e = b :: e.iter.filterMap (fun x => x.toOption) := by
  simp [entRecs, hb]

theorem bufKey_eq {e : MIter} {b : ReadRecord} (hb : e.buf = some b) : bufKey e = b.key := by
  simp [bufKey, hb]

theorem asc_head_lt {b : ReadRecord} {l : List ReadRecord} (h : StrictAsc (b :: l)) :
    ∀ r ∈ l, cmpBytes b.key r.key = .lt := by
  induction l generalizing b with
  | nil => simp
  | cons x xs ih =>
    rw [StrictAsc, List.chain'_cons] at h
    intro r hr
    rcases List.mem_cons.mp hr with he2 | hr'
    · rw [he2]
      exact h.1
    · exact cmpBytes_lt_trans h.1 (ih h.2 r hr')

theorem strictAsc_tail {b : ReadRecord} {l : List ReadRecord} (h : StrictAsc (b :: l)) :
    StrictAsc l :=
  List.Chain'.tail h

theorem tagR_symmetric : Symmetric tagR := fun _ _ h => tagR_symm h

/-- Net effect of the duplicate-discarding loop on a well-formed heap all
of whose buffered keys are at least `rkey`: it succeeds, afterwards every
buffered key is strictly above `rkey`, entries keep their tags and lose at
most their buffered `rkey`-record, and every record with another key
survives. -/
structure DedupSpec (rkey : Bytes) (H H2 : List MIter) : Prop where
  bufs : ∀ e ∈ H2, ∃ b, e.buf = some b
  oks : ∀ e ∈ H2, AllOk e.iter
  ascs : ∀ e ∈ H2, StrictAsc (entRecs e)
  pair : H2.Pairwise tagR
  above : ∀ e ∈ H2, cmpBytes rkey (bufKey e) = .lt
  fwd : ∀ e2 ∈ H2, ∃ e ∈ H, e2.level = e.level ∧ e2.sequence = e.sequence ∧
        ∀ r ∈ entRecs e2, r ∈ entRecs e
  bwd : ∀ e ∈ H, ∀ r ∈ entRecs e, r.key ≠ rkey → ∃ e2 ∈ H2,
        e2.level = e.level ∧ e2.sequence = e.sequence ∧ r ∈ entRecs e2

theorem dedup_spec {rkey : Bytes} : ∀ {H : List MIter},
    (∀ e ∈ H, ∃ b, e.buf = some b) → (∀ e ∈ H, AllOk e.iter) →
    (∀ e ∈ H, StrictAsc (entRecs e)) → H.Pairwise tagR →
    (∀ e ∈ H, cmpBytes rkey (bufKey e) ≠ .gt) →
    ∃ H2, dedup rkey H = .ok H2 ∧ DedupSpec rkey H H2 := by
  intro H
  induction H using dedup.induct rkey with
  | case1 H hp =>
    intro hb hok hasc hpair hlb
    have hH : H = [] := popMax_eq_empty_iff.mp hp
    subst hH
    refine ⟨[], dedup_eq_empty rkey hp, ?_⟩
    exact ⟨by simp, by simp, by simp, List.Pairwise.nil, by simp, by simp, by simp⟩
  | case2 H hp =>
    intro hb hok hasc hpair hlb
    exact absurd hp (popMax_no_panic hb hpair)
  | case3 H t rest hp hbn =>
    intro hb hok hasc hpair hlb
    have ht : t ∈ H := (popMax_perm hp).mem_iff.mpr (List.mem_cons_self _ _)
    rcases hb t ht with ⟨b, hbs⟩
    rw [hbn] at hbs
    cases hbs
  | case4 H t rest hp b hbs hkey hi ih =>
    intro hb hok hasc hpair hlb
    have hperm := popMax_perm hp
    have ht : t ∈ H := hperm.mem_iff.mpr (List.mem_cons_self _ _)
    have hmem : ∀ e ∈ rest, e ∈ H := fun e he => hperm.mem_iff.mpr (List.mem_cons_of_mem _ he)
    have hpair2 : (t :: rest).Pairwise tagR :=
      (List.Perm.pairwise_iff tagR_symm hperm).mp hpair
    have hpc := List.pairwise_cons.mp hpair2
    rcases ih (fun e he => hb e (hmem e he)) (fun e he => hok e (hmem e he))
      (fun e he => hasc e (hmem e he)) hpc.2
      (fun e he => hlb e (hmem e he)) with ⟨H2, hd, hs⟩
    refine ⟨H2, (dedup_eq_keyEq_nil hp hbs hkey hi).trans hd, ?_⟩
    refine ⟨hs.bufs, hs.oks, hs.ascs, hs.pair, hs.above, ?_, ?_⟩
    · intro e2 he2
      rcases hs.fwd e2 he2 with ⟨e, he, h1, h2, h3⟩
      exact ⟨e, hmem e he, h1, h2, h3⟩
    · intro e he r hr hrk
      rcases List.mem_cons.mp (hperm.mem_iff.mp he) with heq | he3
      · exfalso
        rw [heq, entRecs_eq_cons hbs, hi] at hr
        simp only [List.filterMap_nil] at hr
        rcases List.mem_cons.mp hr with hre | hre
        · rw [hre] at hrk
          exact hrk hkey
        · simp at hre
      · exact hs.bwd e he3 r hr hrk
  | case5 H t rest hp b hbs hkey e tl hi =>
    intro hb hok hasc hpair hlb
    have ht : t ∈ H := (popMax_perm hp).mem_iff.mpr (List.mem_cons_self _ _)
    rcases hok t ht (Except.error e) (by rw [hi]; exact List.mem_cons_self _ _) with ⟨r, hr⟩
    cases hr
  | case6 H t rest hp b hbs hkey b2 xs hi ih =>
    intro hb hok hasc hpair hlb
    have hperm := popMax_perm hp
    have ht : t ∈ H := hperm.mem_iff.mpr (List.mem_cons_self _ _)
    have hmem : ∀ e ∈ rest, e ∈ H := fun e he => hperm.mem_iff.mpr (List.mem_cons_of_mem _ he)
    have hpair2 : (t :: rest).Pairwise tagR :=
      (List.Perm.pairwise_iff tagR_symm hperm).mp hpair
    have hpc := List.pairwise_cons.mp hpair2
    have hrecsT : entRecs t = b :: b2 :: xs.filterMap (fun x => x.toOption) := by
      rw [entRecs_eq_cons hbs, hi]
      simp [Except.toOption]
    have hrecsAdv : entRecs ⟨xs, some b2, t.level, t.sequence⟩
        = b2 :: xs.filterMap (fun x => x.toOption) := by
      simp [entRecs]
    have hascT := hasc t ht
    rw [hrecsT] at hascT
    have hbb2 : cmpBytes b.key b2.key = .lt := (List.chain'_cons.mp hascT).1
    have hb2 : ∀ e2 ∈ (⟨xs, some b2, t.level, t.sequence⟩ : MIter) :: rest, ∃ bb, e2.buf = some bb := by
      intro e2 he2
      rcases List.mem_cons.mp he2 with heq | he3
      · rw [heq]
        exact ⟨b2, rfl⟩
      · exact hb e2 (hmem e2 he3)
    have hok2 : ∀ e2 ∈ (⟨xs, some b2, t.level, t.sequence⟩ : MIter) :: rest, AllOk e2.iter := by
      intro e2 he2
      rcases List.mem_cons.mp he2 with heq | he3
      · rw [heq]
        intro x hx
        exact hok t ht x (by rw [hi]; exact List.mem_cons_of_mem _ hx)
      · exact hok e2 (hmem e2 he3)
    have hasc2 : ∀ e2 ∈ (⟨xs, some b2, t.level, t.sequence⟩ : MIter) :: rest, StrictAsc (entRecs e2) := by
      intro e2 he2
      rcases List.mem_cons.mp he2 with heq | he3
      · rw [heq, hrecsAdv]
        exact strictAsc_tail hascT
      · exact hasc e2 (hmem e2 he3)
    have hpair3 : ((⟨xs, some b2, t.level, t.sequence⟩ : MIter) :: rest).Pairwise tagR := by
      refine List.pairwise_cons.mpr ⟨?_, hpc.2⟩
      intro e2 he2
      exact hpc.1 e2 he2
    have hlb2 : ∀ e2 ∈ (⟨xs, some b2, t.level, t.sequence⟩ : MIter) :: rest,
        cmpBytes rkey (bufKey e2) ≠ .gt := by
      intro e2 he2
      rcases List.mem_cons.mp he2 with heq | he3
      · rw [heq, bufKey_eq (rfl : (⟨xs, some b2, t.level, t.sequence⟩ : MIter).buf = some b2)]
        rw [← hkey]
        rw [hbb2]
        simp
      · exact hlb e2 (hmem e2 he3)
    rcases ih hb2 hok2 hasc2 hpair3 hlb2 with ⟨H2, hd, hs⟩
    refine ⟨H2, (dedup_eq_keyEq_ok hp hbs hkey hi).trans hd, ?_⟩
    refine ⟨hs.bufs, hs.oks, hs.ascs, hs.pair, hs.above, ?_, ?_⟩
    · intro e2 he2
      rcases hs.fwd e2 he2 with ⟨e, he, h1, h2, h3⟩
      rcases List.mem_cons.mp he with heq | he3
      · rw [heq] at h1 h2 h3
        refine ⟨t, ht, h1, h2, ?_⟩
        intro r hr
        have hradv := h3 r hr
        rw [hrecsAdv] at hradv
        rw [hrecsT]
        exact List.mem_cons_of_mem _ hradv
      · exact ⟨e, hmem e he3, h1, h2, h3⟩
    · intro e he r hr hrk
      rcases List.mem_cons.mp (hperm.mem_iff.mp he) with heq | he3
      · rw [heq] at hr ⊢
        rw [hrecsT] at hr
        rcases List.mem_cons.mp hr with hre | hr2
        · exfalso
          rw [hre] at hrk
          exact hrk hkey
        · have hradv : r ∈ entRecs ⟨xs, some b2, t.level, t.sequence⟩ := by
            rw [hrecsAdv]
            exact hr2
          rcases hs.bwd _ (List.mem_cons_self _ _) r hradv hrk with ⟨e2, he2, g1, g2, g3⟩
          exact ⟨e2, he2, g1, g2, g3⟩
      · exact hs.bwd e (List.mem_cons_of_mem _ he3) r hr hrk
  | case7 H t rest hp b hbs hkey =>
    intro hb hok hasc hpair hlb
    have hperm := popMax_perm hp
    have ht : t ∈ H := hperm.mem_iff.mpr (List.mem_cons_self _ _)
    have hmax := popMax_max hb hpair hp
    have hbkT : bufKey t = b.key := bufKey_eq hbs
    have hltT : cmpBytes rkey b.key = .lt := by
      have h1 := hlb t ht
      rw [hbkT] at h1
      rcases hc : cmpBytes rkey b.key with _ | _ | _
      · rfl
      · exact absurd (cmpBytes_eq_iff.mp hc).symm hkey
      · exact absurd hc h1
    have habove : ∀ e ∈ H, cmpBytes rkey (bufKey e) = .lt := by
      intro e he
      rcases List.mem_cons.mp (hperm.mem_iff.mp he) with heq | he3
      · rw [heq, hbkT]
        exact hltT
      · rcases hmax e he3 with hlt | ⟨heqk, _⟩
        · exact cmpBytes_lt_trans (by rw [hbkT]; exact hltT) hlt
        · rw [← heqk, hbkT]
          exact hltT
    refine ⟨H, dedup_eq_keyNe hp hbs hkey, ?_⟩
    exact ⟨hb, hok, hasc, hpair, habove,
           fun e2 he2 => ⟨e2, he2, rfl, rfl, fun r hr => hr⟩,
           fun e he r hr _ => ⟨e, he, rfl, rfl, hr⟩⟩

/-- Well-formedness of a merge heap built from non-empty, ascending,
all-ok, tag-compatible inputs, preserved across `MergeIter::next`. -/
structure GoodHeap (H : List MIter) : Prop where
  bufs : ∀ e ∈ H, ∃ b, e.buf = some b
  oks : ∀ e ∈ H, AllOk e.iter
  ascs : ∀ e ∈ H, StrictAsc (entRecs e)
  pair : H.Pairwise tagR

/-- The entry still holds a record with key `k`. -/
def KeyInEnt (e : MIter) (k : Bytes) : Prop := ∃ r ∈ entRecs e, r.key = k

/-- Some entry of the heap still holds a record with key `k`. -/
def KeyIn (H : List MIter) (k : Bytes) : Prop := ∃ e ∈ H, KeyInEnt e k

theorem recsAbove {k : Bytes} {e : MIter} {b : ReadRecord} (hb : e.buf = some b)
    (ha : StrictAsc (entRecs e)) (hk : cmpBytes k (bufKey e) = .lt) :
    ∀ r ∈ entRecs e, cmpBytes k r.key = .lt := by
  rw [bufKey_eq hb] at hk
  rw [entRecs_eq_cons hb] at ha ⊢
  intro r hr
  rcases List.mem_cons.mp hr with he2 | hr2
  · rw [he2]
    exact hk
  · exact cmpBytes_lt_trans hk (asc_head_lt ha r hr2)

theorem keyInEnt_bufKey {f : MIter} {bf : ReadRecord} {k : Bytes} (hb : f.buf = some bf)
    (ha : StrictAsc (entRecs f)) (hge : cmpBytes k (bufKey f) ≠ .gt)
    (hk : KeyInEnt f k) : bufKey f = k := by
  rcases hk with ⟨r, hr, hrk⟩
  rw [entRecs_eq_cons hb] at hr ha
  rcases List.mem_cons.mp hr with he2 | hr2
  · rw [bufKey_eq hb, ← hrk, he2]
  · exfalso
    have hlt : cmpBytes bf.key r.key = .lt := asc_head_lt ha r hr2
    rw [hrk] at hlt
    rw [bufKey_eq hb] at hge
    exact hge (cmpBytes_gt_iff_lt.mpr hlt)

theorem tagR_congr {a b a2 b2 : MIter} (h : tagR a b)
    (hl : a2.level = a.level) (hsq : a2.sequence = a.sequence)
    (hl2 : b2.level = b.level) (hsq2 : b2.sequence = b.sequence) : tagR a2 b2 := by
  intro hq
  rw [hl, hl2] at hq
  rcases h hq with ⟨sa, sb, h1, h2, h3⟩
  exact ⟨sa, sb, hsq ▸ h1, hsq2 ▸ h2, h3⟩

theorem mergeNext_good {H : List MIter} (hg : GoodHeap H) (hne : H ≠ []) :
    ∃ (w : ReadRecord) (H2 : List MIter),
      mergeNext H = .item (.ok w) H2 ∧ GoodHeap H2 ∧
      (∀ e2 ∈ H2, ∀ r ∈ entRecs e2, cmpBytes w.key r.key = .lt) ∧
      (∀ k, KeyIn H k ↔ (k = w.key ∨ KeyIn H2 k)) ∧
      (∃ e ∈ H, e.buf = some w ∧ ∀ f ∈ H, KeyInEnt f w.key → prioGE e f) ∧
      (∀ e2 ∈ H2, ∃ e ∈ H, e2.level = e.level ∧ e2.sequence = e.sequence ∧
        ∀ r ∈ entRecs e2, r ∈ entRecs e) ∧
      (∀ e ∈ H, ∀ r ∈ entRecs e, r.key ≠ w.key → ∃ e2 ∈ H2,
        e2.level = e.level ∧ e2.sequence = e.sequence ∧ r ∈ entRecs e2) := by
  rcases hp : popMax H with _ | _ | ⟨n, rest⟩
  · exact absurd (popMax_eq_empty_iff.mp hp) hne
  · exact absurd hp (popMax_no_panic hg.bufs hg.pair)
  · have hperm := popMax_perm hp
    have hn : n ∈ H := hperm.mem_iff.mpr (List.mem_cons_self _ _)
    have hmem : ∀ e ∈ rest, e ∈ H := fun e he => hperm.mem_iff.mpr (List.mem_cons_of_mem _ he)
    have hpair2 : (n :: rest).Pairwise tagR := (List.Perm.pairwise_iff tagR_symm hperm).mp hg.pair
    have hpc := List.pairwise_cons.mp hpair2
    rcases hg.bufs n hn with ⟨w, hbn⟩
    have hmax := popMax_max hg.bufs hg.pair hp
    have hbkN : bufKey n = w.key := bufKey_eq hbn
    have hlb : ∀ e ∈ rest, cmpBytes w.key (bufKey e) ≠ .gt := by
      intro e he
      rcases hmax e he with hlt | ⟨heqk, _⟩
      · rw [hbkN] at hlt
        simp [hlt]
      · rw [← heqk, hbkN, cmpBytes_refl]
        simp
    rcases dedup_spec (fun e he => hg.bufs e (hmem e he)) (fun e he => hg.oks e (hmem e he))
      (fun e he => hg.ascs e (hmem e he)) hpc.2 hlb with ⟨H3, hd, hs⟩
    have hwinner : ∀ f ∈ H, KeyInEnt f w.key → prioGE n f := by
      intro f hf hkf
      rcases List.mem_cons.mp (hperm.mem_iff.mp hf) with heq | hf2
      · rw [heq]
        exact Or.inr ⟨rfl, le_refl _⟩
      · rcases hg.bufs f (hmem f hf2) with ⟨bf, hbf⟩
        have hbfk : bufKey f = w.key :=
          keyInEnt_bufKey hbf (hg.ascs f (hmem f hf2)) (hlb f hf2) hkf
        rcases hmax f hf2 with hlt | ⟨heqk, hpr⟩
        · exfalso
          rw [hbkN, hbfk, cmpBytes_refl] at hlt
          cases hlt
        · exact hpr
    have hKeyInW : KeyIn H w.key :=
      ⟨n, hn, w, by rw [entRecs_eq_cons hbn]; exact List.mem_cons_self _ _, rfl⟩
    rcases hi : n.iter with _ | ⟨x, xs⟩
    · have hrecsN : entRecs n = [w] := by
        rw [entRecs_eq_cons hbn, hi]
        simp
      refine ⟨w, H3, ?_, ⟨hs.bufs, hs.oks, hs.ascs, hs.pair⟩, ?_, ?_,
        ⟨n, hn, hbn, hwinner⟩, ?_, ?_⟩
      · rw [mergeNext]
        simp only [hp, hbn, hd, hi]
      · intro e2 he2 r hr
        rcases hs.bufs e2 he2 with ⟨b2, hb2⟩
        exact recsAbove hb2 (hs.ascs e2 he2) (hs.above e2 he2) r hr
      · intro k
        constructor
        · rintro ⟨e, he, r, hr, hrk⟩
          rcases List.mem_cons.mp (hperm.mem_iff.mp he) with heq | he2
          · rw [heq, hrecsN] at hr
            simp at hr
            left
            rw [← hrk, hr]
          · by_cases hkw : k = w.key
            · exact Or.inl hkw
            · right
              rcases hs.bwd e he2 r hr (by rw [hrk]; exact hkw) with ⟨e2, he3, _, _, hre⟩
              exact ⟨e2, he3, r, hre, hrk⟩
        · rintro (rfl | ⟨e2, he2, r, hr, hrk⟩)
          · exact hKeyInW
          · rcases hs.fwd e2 he2 with ⟨e, he, _, _, hsub⟩
            exact ⟨e, hmem e he, r, hsub r hr, hrk⟩
      · intro e2 he2
        rcases hs.fwd e2 he2 with ⟨e, he, h1, h2, h3⟩
        exact ⟨e, hmem e he, h1, h2, h3⟩
      · intro e he r hr hrk
        rcases List.mem_cons.mp (hperm.mem_iff.mp he) with heq | he2
        · exfalso
          rw [heq, hrecsN] at hr
          simp at hr
          rw [hr] at hrk
          exact hrk rfl
        · rcases hs.bwd e he2 r hr hrk with ⟨e2, he3, g1, g2, g3⟩
          exact ⟨e2, he3, g1, g2, g3⟩
    · rcases hg.oks n hn x (by rw [hi]; exact List.mem_cons_self _ _) with ⟨b2, hx⟩
      subst hx
      have hrecsN : entRecs n = w :: b2 :: xs.filterMap (fun y => y.toOption) := by
        rw [entRecs_eq_cons hbn, hi]
        simp [Except.toOption]
      have hrecsAdv : entRecs ⟨xs, some b2, n.level, n.sequence⟩
          = b2 :: xs.filterMap (fun y => y.toOption) := by
        simp [entRecs]
      have hascN := hg.ascs n hn
      rw [hrecsN] at hascN
      have hwb2 : cmpBytes w.key b2.key = .lt := (List.chain'_cons.mp hascN).1
      refine ⟨w, ⟨xs, some b2, n.level, n.sequence⟩ :: H3, ?_, ?_, ?_, ?_,
        ⟨n, hn, hbn, hwinner⟩, ?_, ?_⟩
      · rw [mergeNext]
        simp only [hp, hbn, hd, hi]
      · refine ⟨?_, ?_, ?_, ?_⟩
        · intro e2 he2
          rcases List.mem_cons.mp he2 with heq | he3
          · rw [heq]
            exact ⟨b2, rfl⟩
          · exact hs.bufs e2 he3
        · intro e2 he2
          rcases List.mem_cons.mp he2 with heq | he3
          · rw [heq]
            intro y hy
            exact hg.oks n hn y (by rw [hi]; exact List.mem_cons_of_mem _ hy)
          · exact hs.oks e2 he3
        · intro e2 he2
          rcases List.mem_cons.mp he2 with heq | he3
          · rw [heq, hrecsAdv]
            exact strictAsc_tail hascN
          · exact hs.ascs e2 he3
        · refine List.pairwise_cons.mpr ⟨?_, hs.pair⟩
          intro e2 he2
          rcases hs.fwd e2 he2 with ⟨e, he, h1, h2, _⟩
          exact tagR_congr (hpc.1 e he) rfl rfl h1 h2
      · intro e2 he2 r hr
        rcases List.mem_cons.mp he2 with heq | he3
        · rw [heq] at hr
          refine recsAbove (rfl : (⟨xs, some b2, n.level, n.sequence⟩ : MIter).buf = some b2)
            ?_ ?_ r hr
          · rw [hrecsAdv]
            exact strictAsc_tail hascN
          · rw [bufKey_eq (rfl : (⟨xs, some b2, n.level, n.sequence⟩ : MIter).buf = some b2)]
            exact hwb2
        · rcases hs.bufs e2 he3 with ⟨b3, hb3⟩
          exact recsAbove hb3 (hs.ascs e2 he3) (hs.above e2 he3) r hr
      · intro k
        constructor
        · rintro ⟨e, he, r, hr, hrk⟩
          rcases List.mem_cons.mp (hperm.mem_iff.mp he) with heq | he2
          · rw [heq, hrecsN] at hr
            rcases List.mem_cons.mp hr with hre | hr2
            · left
              rw [← hrk, hre]
            · right
              refine ⟨⟨xs, some b2, n.level, n.sequence⟩, List.mem_cons_self _ _, r, ?_, hrk⟩
              rw [hrecsAdv]
              exact hr2
          · by_cases hkw : k = w.key
            · exact Or.inl hkw
            · right
              rcases hs.bwd e he2 r hr (by rw [hrk]; exact hkw) with ⟨e2, he3, _, _, hre⟩
              exact ⟨e2, List.mem_cons_of_mem _ he3, r, hre, hrk⟩
        · rintro (rfl | ⟨e2, he2, r, hr, hrk⟩)
          · exact hKeyInW
          · rcases List.mem_cons.mp he2 with heq | he3
            · rw [heq] at hr
              refine ⟨n, hn, r, ?_, hrk⟩
              rw [hrecsN]
              rw [hrecsAdv] at hr
              exact List.mem_cons_of_mem _ hr
            · rcases hs.fwd e2 he3 with ⟨e, he, _, _, hsub⟩
              exact ⟨e, hmem e he, r, hsub r hr, hrk⟩
      · intro e2 he2
        rcases List.mem_cons.mp he2 with heq | he3
        · refine ⟨n, hn, ?_, ?_, ?_⟩
          · rw [heq]
          · rw [heq]
          · intro r hr
            rw [heq] at hr
            rw [hrecsAdv] at hr
            rw [hrecsN]
            exact List.mem_cons_of_mem _ hr
        · rcases hs.fwd e2 he3 with ⟨e, he, h1, h2, h3⟩
          exact ⟨e, hmem e he, h1, h2, h3⟩
      · intro e he r hr hrk
        rcases List.mem_cons.mp (hperm.mem_iff.mp he) with heq | he2
        · rw [heq] at hr ⊢
          rw [hrecsN] at hr
          rcases List.mem_cons.mp hr with hre | hr2
          · exfalso
            rw [hre] at hrk
            exact hrk rfl
          · refine ⟨⟨xs, some b2, n.level, n.sequence⟩, List.mem_cons_self _ _, rfl, rfl, ?_⟩
            rw [hrecsAdv]
            exact hr2
        · rcases hs.bwd e he2 r hr hrk with ⟨e2, he3, g1, g2, g3⟩
          exact ⟨e2, List.mem_cons_of_mem _ he3, g1, g2, g3⟩

theorem mergeRun_nil :
    mergeRun ([] : List MIter) = ⟨[], .finished⟩ :=
  mergeRun_eq_done (by rw [mergeNext]; rfl)

theorem mergeRun_good : ∀ (N : Nat) (H : List MIter), heapWeight H ≤ N → GoodHeap H →
    ∃ recs : List ReadRecord,
      (mergeRun H).items = recs.map Except.ok ∧
      (mergeRun H).term = .finished ∧
      StrictAsc recs ∧
      (∀ k, KeyIn H k ↔ ∃ r ∈ recs, r.key = k) ∧
      (∀ r ∈ recs, ∃ e ∈ H, r ∈ entRecs e ∧ ∀ f ∈ H, KeyInEnt f r.key → prioGE e f) := by
  intro N
  induction N with
  | zero =>
    intro H hw hg
    have hH : H = [] := by
      cases H with
      | nil => rfl
      | cons x xs =>
        exfalso
        simp [heapWeight] at hw
    subst hH
    refine ⟨[], ?_, ?_, ?_, ?_, ?_⟩
    · simp [mergeRun_nil]
    · simp [mergeRun_nil]
    · simp [StrictAsc]
    · simp [KeyIn]
    · simp
  | succ N ih =>
    intro H hw hg
    by_cases hne : H = []
    · subst hne
      refine ⟨[], ?_, ?_, ?_, ?_, ?_⟩
      · simp [mergeRun_nil]
      · simp [mergeRun_nil]
      · simp [StrictAsc]
      · simp [KeyIn]
      · simp
    · rcases mergeNext_good hg hne with ⟨w, H2, hstep, hg2, habove, hkeys, hwin, hfwd, hbwd⟩
      have hw2 : heapWeight H2 ≤ N := by
        have := mergeNext_item_weight hstep
        omega
      rcases ih H2 hw2 hg2 with ⟨recs, h1, h2, h3, h4, h5⟩
      refine ⟨w :: recs, ?_, ?_, ?_, ?_, ?_⟩
      · rw [mergeRun_eq_item hstep]
        simp [h1]
      · rw [mergeRun_eq_item hstep]
        simp [h2]
      · rw [StrictAsc]
        cases hrecs : recs with
        | nil => simp
        | cons r0 rs =>
          rw [List.chain'_cons]
          constructor
          · have hmem0 : ∃ r ∈ recs, r.key = r0.key :=
              ⟨r0, by rw [hrecs]; exact List.mem_cons_self _ _, rfl⟩
            rcases (h4 r0.key).mpr hmem0 with ⟨e2, he2, r, hr, hrk⟩
            have := habove e2 he2 r hr
            rw [hrk] at this
            exact this
          · rw [hrecs] at h3
            exact h3
      · intro k
        rw [hkeys k]
        constructor
        · rintro (rfl | hk2)
          · exact ⟨w, List.mem_cons_self _ _, rfl⟩
          · rcases (h4 k).mp hk2 with ⟨r, hr, hrk⟩
            exact ⟨r, List.mem_cons_of_mem _ hr, hrk⟩
        · rintro ⟨r, hr, hrk⟩
          rcases List.mem_cons.mp hr with hre | hr2
          · left
            rw [← hrk, hre]
          · right
            exact (h4 k).mpr ⟨r, hr2, hrk⟩
      · intro r hr
        rcases List.mem_cons.mp hr with hre | hr2
        · rcases hwin with ⟨e, he, hbw, hprio⟩
          refine ⟨e, he, ?_, ?_⟩
          · rw [hre, entRecs_eq_cons hbw]
            exact List.mem_cons_self _ _
          · intro f hf hkf
            rw [hre] at hkf
            exact hprio f hf hkf
        · rcases h5 r hr2 with ⟨e2, he2, hre2, hprio2⟩
          rcases hfwd e2 he2 with ⟨e, he, g1, g2, g3⟩
          refine ⟨e, he, g3 r hre2, ?_⟩
          intro f hf hkf
          have hne2 : r.key ≠ w.key := by
            rcases (h4 r.key).mpr ⟨r, hr2, rfl⟩ with ⟨e3, he3, r3, hr3, hrk3⟩
            have hh := habove e3 he3 r3 hr3
            rw [hrk3] at hh
            intro hc
            rw [hc, cmpBytes_refl] at hh
            cases hh
          rcases hkf with ⟨rf, hrf, hrfk⟩
          rcases hbwd f hf rf hrf (by rw [hrfk]; exact hne2) with ⟨f2, hf2, q1, q2, q3⟩
          have hpr := hprio2 f2 hf2 ⟨rf, q3, hrfk⟩
          unfold prioGE at hpr ⊢
          rw [g1, g2, q1, q2] at hpr
          exact hpr

/-- One input to the merge as the claim describes it: an iterator of
records tagged with a level and an optional sequence. -/
structure MergeInput : Type where
  records : List ReadRecord
  level : Nat
  sequence : Option Nat

/-- The heap entry `MergeIter::push_iter` builds from an input: first
record buffered, remaining records pending. -/
def inputEntry (i : MergeInput) : MIter :=
  ⟨(i.records.drop 1).map Except.ok, i.records.head?, i.level, i.sequence⟩

theorem entRecs_inputEntry {i : MergeInput} (h : i.records ≠ []) :
    entRecs (inputEntry i) = i.records := by
  rcases hrec : i.records with _ | ⟨r, rs⟩
  · exact absurd hrec h
  · simp only [inputEntry, entRecs, hrec, List.drop_one, List.tail_cons, List.head?_cons,
      List.filterMap_map]
    have hco : ((fun x => Except.toOption x) ∘ (Except.ok : ReadRecord → RItem))
        = some := by
      funext x
      rfl
    rw [hco, List.filterMap_some]
    rfl

/-- C3 counterexample: two level-0 inputs with distinct sequences, the
first holding one record (key `[1]`), the second empty.  `push_iter`
stores the empty input with an empty buffer; on the first `next()` the
non-empty entry is popped and the duplicate-discarding peek hits the
buffer-less entry, panicking on `Buffer must not be None`.  No item is
ever emitted, so the record with key `[1]` — which appears in an input
that satisfies the claim's hypotheses (vacuously ascending, sequences
present and distinct) — is never emitted with any ordering, refuting the
claim as stated. -/
theorem c3_merge_empty_input_counterexample :
    (pushIter [] [.ok (.exist [1] [10])] 0 (some 0)).bind
        (fun h => pushIter h [] 0 (some 1))
      = .ok [⟨[], none, 0, some 1⟩, ⟨[], some (.exist [1] [10]), 0, some 0⟩] ∧
    mergeRun [⟨[], none, 0, some 1⟩, ⟨[], some (.exist [1] [10]), 0, some 0⟩]
      = ⟨[], .panicked⟩ := by
  refine ⟨rfl, ?_⟩
  have hA : popMax [(⟨[], none, 0, some 1⟩ : MIter), ⟨[], some (.exist [1] [10]), 0, some 0⟩]
      = .popped ⟨[], some (.exist [1] [10]), 0, some 0⟩ [⟨[], none, 0, some 1⟩] := rfl
  have hd : dedup [1] [(⟨[], none, 0, some 1⟩ : MIter)] = .panic :=
    dedup_eq_bufNone _ rfl rfl
  have h1 : mergeNext [(⟨[], none, 0, some 1⟩ : MIter),
      ⟨[], some (.exist [1] [10]), 0, some 0⟩] = .panic := by
    rw [mergeNext, hA]
    simp only [ReadRecord.key, hd]
  exact mergeRun_eq_panic h1

/-- C3 amended: merge correctness with the hypothesis — forced by the
counterexample — that every input is non-empty.  For every collection of
non-empty inputs with strictly ascending keys, sequences present and
pairwise distinct whenever two inputs share a level, the merge finishes
cleanly, its output is a strictly-ascending sequence of `Ok` records, the
output keys are exactly the keys appearing in the inputs, and each
emitted record comes from an input of maximal newness (lowest level, ties
to the higher sequence) among the inputs holding its key. -/
theorem c3_merge_correct_amended (ins : List MergeInput)
    (hne : ∀ i ∈ ins, i.records ≠ [])
    (hasc : ∀ i ∈ ins, StrictAsc i.records)
    (hpair : ins.Pairwise (fun a b => a.level = b.level →
      ∃ sa sb, a.sequence = some sa ∧ b.sequence = some sb ∧ sa ≠ sb)) :
    ∃ recs : List ReadRecord,
      (mergeRun (ins.map inputEntry)).items = recs.map Except.ok ∧
      (mergeRun (ins.map inputEntry)).term = .finished ∧
      StrictAsc recs ∧
      (∀ k, (∃ i ∈ ins, ∃ r ∈ i.records, r.key = k) ↔ ∃ r ∈ recs, r.key = k) ∧
      (∀ r ∈ recs, ∃ i ∈ ins, r ∈ i.records ∧
        ∀ j ∈ ins, (∃ r2 ∈ j.records, r2.key = r.key) →
          i.level < j.level ∨ (i.level = j.level ∧
            j.sequence.getD 0 ≤ i.sequence.getD 0)) := by
  have hg : GoodHeap (ins.map inputEntry) := by
    refine ⟨?_, ?_, ?_, ?_⟩
    · intro e he
      rcases List.mem_map.mp he with ⟨i, hi, rfl⟩
      rcases hrec : i.records with _ | ⟨r, rs⟩
      · exact absurd hrec (hne i hi)
      · exact ⟨r, by simp [inputEntry, hrec]⟩
    · intro e he
      rcases List.mem_map.mp he with ⟨i, hi, rfl⟩
      intro x hx
      simp only [inputEntry, List.mem_map] at hx
      rcases hx with ⟨r, _, rfl⟩
      exact ⟨r, rfl⟩
    · intro e he
      rcases List.mem_map.mp he with ⟨i, hi, rfl⟩
      rw [entRecs_inputEntry (hne i hi)]
      exact hasc i hi
    · rw [List.pairwise_map]
      exact hpair
  rcases mergeRun_good (heapWeight (ins.map inputEntry)) _ (le_refl _) hg with
    ⟨recs, h1, h2, h3, h4, h5⟩
  refine ⟨recs, h1, h2, h3, ?_, ?_⟩
  · intro k
    rw [← h4 k]
    constructor
    · rintro ⟨i, hi, r, hr, hrk⟩
      refine ⟨inputEntry i, List.mem_map_of_mem _ hi, r, ?_, hrk⟩
      rw [entRecs_inputEntry (hne i hi)]
      exact hr
    · rintro ⟨e, he, r, hr, hrk⟩
      rcases List.mem_map.mp he with ⟨i, hi, rfl⟩
      rw [entRecs_inputEntry (hne i hi)] at hr
      exact ⟨i, hi, r, hr, hrk⟩
  · intro r hr
    rcases h5 r hr with ⟨e, he, hre, hprio⟩
    rcases List.mem_map.mp he with ⟨i, hi, rfl⟩
    rw [entRecs_inputEntry (hne i hi)] at hre
    refine ⟨i, hi, hre, ?_⟩
    rintro j hj ⟨r2, hr2, hr2k⟩
    have hkj : KeyInEnt (inputEntry j) r.key := by
      refine ⟨r2, ?_, hr2k⟩
      rw [entRecs_inputEntry (hne j hj)]
      exact hr2
    exact hprio (inputEntry j) (List.mem_map_of_mem _ hj) hkj

/-- Witness for the amended C3 at two concrete level-0 inputs. -/
theorem c3_merge_correct_amended_witness :
    ∃ recs : List ReadRecord,
      (mergeRun (([⟨[.exist [1] [7]], 0, some 0⟩, ⟨[.exist [2] [8]], 0, some 1⟩] :
          List MergeInput).map inputEntry)).items = recs.map Except.ok ∧
      (mergeRun (([⟨[.exist [1] [7]], 0, some 0⟩, ⟨[.exist [2] [8]], 0, some 1⟩] :
          List MergeInput).map inputEntry)).term = .finished ∧
      StrictAsc recs ∧
      (∀ k, (∃ i ∈ ([⟨[.exist [1] [7]], 0, some 0⟩, ⟨[.exist [2] [8]], 0, some 1⟩] :
          List MergeInput), ∃ r ∈ i.records, r.key = k) ↔ ∃ r ∈ recs, r.key = k) ∧
      (∀ r ∈ recs, ∃ i ∈ ([⟨[.exist [1] [7]], 0, some 0⟩, ⟨[.exist [2] [8]], 0, some 1⟩] :
          List MergeInput), r ∈ i.records ∧
        ∀ j ∈ ([⟨[.exist [1] [7]], 0, some 0⟩, ⟨[.exist [2] [8]], 0, some 1⟩] :
          List MergeInput), (∃ r2 ∈ j.records, r2.key = r.key) →
          i.level < j.level ∨ (i.level = j.level ∧
            j.sequence.getD 0 ≤ i.sequence.getD 0)) :=
  c3_merge_correct_amended [⟨[.exist [1] [7]], 0, some 0⟩, ⟨[.exist [2] [8]], 0, some 1⟩]
    (by intro i hi; fin_cases hi <;> simp)
    (by intro i hi; fin_cases hi <;> simp [StrictAsc])
    (by
      refine List.pairwise_cons.mpr ⟨?_, List.pairwise_singleton _ _⟩
      intro b hb
      simp at hb
      subst hb
      intro _
      exact ⟨0, 1, rfl, rfl, by decide⟩)

end Crucible
